import Mathlib

set_option maxHeartbeats 1000000
set_option maxRecDepth 100000

/- Verification of the magic-square cipher repository (`magic_square.py`,
   `cipher.py`).  Python strings are modelled as lists of Unicode code points
   (`List ℕ`); numpy 2D integer arrays as an order together with a (total)
   entry function.  Randomness (`random.randint`) is modelled by passing the
   drawn values explicitly and quantifying over all draws that the calls to
   `randint` can produce. -/

/-- Python `%` applied to an integer and a positive modulus (result is the
    nonnegative representative, unlike truncation). -/
def pymod (a : ℤ) (m : ℕ) : ℕ := (a % (m : ℤ)).toNat

/-- A square numpy integer array: order `n`, entries `a r c` (row `r`,
    column `c`).  All arrays built by `magic_square.py` are square, so the
    `shape[0] == shape[1]` test of the validator is built into the type. -/
structure Sq where
  n : ℕ
  a : ℕ → ℕ → ℕ

/-- Row-major flattening, `numpy.ndarray.flatten` / `reshape`. -/
def Sq.flatten (s : Sq) : List ℕ :=
  (List.range (s.n * s.n)).map fun t => s.a (t / s.n) (t % s.n)

/-- The magic constant `order * (order ** 2 + 1) // 2` of `check_square_magic`. -/
def magicConst (n : ℕ) : ℕ := n * (n ^ 2 + 1) / 2

def rowSum (s : Sq) (i : ℕ) : ℕ := ∑ j ∈ Finset.range s.n, s.a i j

def colSum (s : Sq) (j : ℕ) : ℕ := ∑ i ∈ Finset.range s.n, s.a i j

/-- Sum over `np.diag(square)`. -/
def diagSum (s : Sq) : ℕ := ∑ i ∈ Finset.range s.n, s.a i i

/-- Sum over `np.diag(np.fliplr(square))`. -/
def antidiagSum (s : Sq) : ℕ := ∑ i ∈ Finset.range s.n, s.a i (s.n - i - 1)

/-- `magic_square.check_square_magic`: every row sum, column sum and both main
    diagonal sums equal the magic constant.  (The source loop returns `False`
    at the first failing sum; that early exit is equivalent to this
    conjunction.) -/
def check_square_magic (s : Sq) : Bool :=
  decide ((∀ i < s.n, rowSum s i = magicConst s.n ∧ colSum s i = magicConst s.n)
    ∧ diagSum s = magicConst s.n ∧ antidiagSum s = magicConst s.n)

/-- `magic_square.check_magic_square_symmetry`: the source validator checks the
    pair sums `square[r, c] + square[n-1-r, n-1-c] == n²+1` only for `r` and
    `c` in the first half of each axis. -/
def check_magic_square_symmetry (s : Sq) : Bool :=
  decide (∀ r < s.n / 2, ∀ c < s.n / 2,
    s.a r c + s.a (s.n - r - 1) (s.n - c - 1) = s.n ^ 2 + 1)

/-- Full central symmetry of a square: every pair of centrally opposite cells
    sums to `n² + 1` (the property §3 of the spec attributes to generated
    magic squares; stronger than the quadrant test of
    `check_magic_square_symmetry`). -/
def centralSym (s : Sq) : Prop :=
  ∀ r < s.n, ∀ c < s.n, s.a r c + s.a (s.n - r - 1) (s.n - c - 1) = s.n ^ 2 + 1

instance (s : Sq) : Decidable (centralSym s) := by
  unfold centralSym; infer_instance

/-- The simultaneous numpy swap `x[i], x[j] = x[j], x[i].copy()` as an index
    map. -/
def swapIdx (i j x : ℕ) : ℕ := if x = i then j else if x = j then i else x

/-- `np.rot90(square, axes=(0, 1))`: counterclockwise rotation. -/
def rot90ccw (s : Sq) : Sq := ⟨s.n, fun r c => s.a c (s.n - 1 - r)⟩

/-- `np.rot90(square, axes=(1, 0))`: clockwise rotation. -/
def rot90cw (s : Sq) : Sq := ⟨s.n, fun r c => s.a (s.n - 1 - c) r⟩

/-- Swap of rows `i` and `j` (`square[i, :], square[j, :] = ...`). -/
def swapRowsSq (i j : ℕ) (s : Sq) : Sq := ⟨s.n, fun r c => s.a (swapIdx i j r) c⟩

/-- Swap of columns `i` and `j` (`square[:, i], square[:, j] = ...`). -/
def swapColsSq (i j : ℕ) (s : Sq) : Sq := ⟨s.n, fun r c => s.a r (swapIdx i j c)⟩

/-- One iteration of the transformation loop of
    `magic_square.transform_magic_square`: the operation number together with
    the further index draws it consumes. -/
inductive TChoice where
  | rotCCW : TChoice
  | rotCW : TChoice
  | symSwap (i : ℕ) : TChoice
  | pairSwap (isCol : Bool) (i j : ℕ) : TChoice
deriving DecidableEq

/-- `operations = 2 if order == 3 or (order % 4 != 0 and order % 2 == 0) else 4`. -/
def twoOpsOnly (n : ℕ) : Bool := decide (n = 3 ∨ (n % 4 ≠ 0 ∧ n % 2 = 0))

/-- Which per-iteration draws the source can produce.  `operation =
    randint(0, operations)` includes BOTH endpoints, so operation 2 (the
    symmetric swap) is reachable in both regimes; operations 3 and 4 are
    reachable only when `operations = 4`.  For operation 2 the row index is
    `randint(0, order - 1)`; for operations 3 and 4 the indices are fixed to
    `(0, 1)` for orders 4 and 5, and otherwise drawn as
    `i = randint(0, order // 4)`, `j = randint(i + 1, (order - 2) // 2)`. -/
def validChoice (n : ℕ) (c : TChoice) : Bool :=
  match c with
  | .rotCCW => true
  | .rotCW => true
  | .symSwap i => decide (i ≤ n - 1)
  | .pairSwap _ i j =>
      !twoOpsOnly n &&
        (if n = 4 ∨ n = 5 then decide (i = 0 ∧ j = 1)
         else decide (i ≤ n / 4 ∧ i + 1 ≤ j ∧ j ≤ (n - 2) / 2))

/-- The effect of one iteration of the transformation loop.  Operation 2 swaps
    row `i` with its opposite and then column `i` with its opposite;
    operations 3/4 swap rows (resp. columns) `i, j` and then their
    opposites. -/
def applyChoice (s : Sq) (c : TChoice) : Sq :=
  match c with
  | .rotCCW => rot90ccw s
  | .rotCW => rot90cw s
  | .symSwap i => swapColsSq i (s.n - 1 - i) (swapRowsSq i (s.n - 1 - i) s)
  | .pairSwap false i j =>
      swapRowsSq (s.n - 1 - i) (s.n - 1 - j) (swapRowsSq i j s)
  | .pairSwap true i j =>
      swapColsSq (s.n - 1 - i) (s.n - 1 - j) (swapColsSq i j s)

/-- `magic_square.transform_magic_square`.  The square is returned unchanged
    when it is not magic; otherwise the loop body runs once per element of
    `choices` (the list of random draws, so `choices.length` plays the role of
    the nonnegative `amount`; a negative `amount` just sets it to the order).
    The `deepcopy` of the source is the identity here since entries are
    immutable values; the aliasing behaviour it prevents is modelled
    separately by `transformProg`. -/
def transform_magic_square (s : Sq) (choices : List TChoice) : Sq :=
  if check_square_magic s then choices.foldl applyChoice s else s

/-- Double update of an entry function (one numpy element assignment). -/
def update2 (f : ℕ → ℕ → ℕ) (r c v : ℕ) : ℕ → ℕ → ℕ :=
  fun x y => if x = r ∧ y = c then v else f x y

/-- The `while count <= size ** 2` loop of `create_odd_square` (Siamese
    method).  `fuel` bounds the number of iterations; the caller passes
    `2 * size² + 2`, which is enough for the loop to finish (every theorem
    below that evaluates the result verifies that all `size²` values were in
    fact placed, i.e. that the fuel did not run out). -/
def siamLoop (size : ℕ) : ℕ → (ℕ → ℕ → ℕ) → ℕ → ℕ → ℕ → (ℕ → ℕ → ℕ)
  | 0, sq, _, _, _ => sq
  | fuel + 1, sq, count, row, col =>
    if count ≤ size ^ 2 then
      if sq row col = 0 then
        siamLoop size fuel (update2 sq row col count) (count + 1)
          (pymod ((row : ℤ) - 1) size) (pymod ((col : ℤ) + 1) size)
      else
        siamLoop size fuel sq count
          (pymod ((row : ℤ) + 2) size) (pymod ((col : ℤ) - 1) size)
    else sq

/-- `while size <= 2 or size % 2 == 0: size += 1` of `create_odd_square`,
    with an explicit iteration bound (structural recursion keeps the
    definition kernel-reducible).  Three increments reach an odd number above
    2 from any start, so the bound of 4 passed by `oddify` is never hit. -/
def oddifyF : ℕ → ℕ → ℕ
  | 0, size => size
  | fuel + 1, size =>
    if size ≤ 2 ∨ size % 2 = 0 then oddifyF fuel (size + 1) else size

def oddify (size : ℕ) : ℕ := oddifyF 4 size

/-- `magic_square.create_odd_square` (Siamese method), starting at row 0,
    middle column, with count 1. -/
def create_odd_square (size0 : ℕ) : Sq :=
  let size := oddify size0
  ⟨size, siamLoop size (2 * size ^ 2 + 2) (fun _ _ => 0) 1 0 (size / 2)⟩

/-- `while size % 4 != 0: size += 1` of `create_double_even_square` (at most
    three increments are ever needed, so the bound of 4 is never hit). -/
def doublifyF : ℕ → ℕ → ℕ
  | 0, size => size
  | fuel + 1, size => if size % 4 = 0 then size else doublifyF fuel (size + 1)

def doublify (size : ℕ) : ℕ := doublifyF 4 size

/-- The cells replaced by the quarter loop of `create_double_even_square`:
    inside every 4×4 quarter the loop overwrites, for `i in (1, 2)`, the cells
    `(first_row, first_col+i)`, `(last_row, first_col+i)`,
    `(first_row+i, first_col)`, `(first_row+i, last_col)` — i.e. exactly the
    cells whose in-quarter coordinates `(r % 4, c % 4)` match the drawn
    `[ ] [x] [x] [ ] / [x] [ ] [ ] [x] / [x] [ ] [ ] [x] / [ ] [x] [x] [ ]`
    pattern. -/
def dblPattern (r c : ℕ) : Bool :=
  decide (((r % 4 = 0 ∨ r % 4 = 3) ∧ (c % 4 = 1 ∨ c % 4 = 2))
    ∨ ((r % 4 = 1 ∨ r % 4 = 2) ∧ (c % 4 = 0 ∨ c % 4 = 3)))

/-- `magic_square.create_double_even_square`: the row-major `arange` square
    (`square[r][c] = 1 + r*size + c`) with the marked cells replaced by the
    reversed sequence (`reverse_square[r][c] = size² - (r*size + c)`). -/
def create_double_even_square (size0 : ℕ) : Sq :=
  let size := doublify size0
  ⟨size, fun r c =>
    if dblPattern r c then size ^ 2 - (r * size + c) else 1 + r * size + c⟩

/-- `magic_square.create_square`: adjust the requested order upwards until it
    is at least 3 and either odd or a multiple of 4, then dispatch.  From any
    start the `while True` loop returns within three `size += 1` steps, so
    the structural bound of 4 used by `create_square` is never hit. -/
def create_squareF : ℕ → ℕ → Sq
  | 0, _ => ⟨0, fun _ _ => 0⟩
  | fuel + 1, size =>
    if size < 3 then create_squareF fuel (size + 1)
    else if size % 2 ≠ 0 then create_odd_square size
    else if size % 4 = 0 then create_double_even_square size
    else create_squareF fuel (size + 1)

def create_square (size : ℕ) : Sq := create_squareF 4 size

/-! ### A small heap model for the aliasing/frame behaviour of
    `transform_magic_square` (the `deepcopy` step). -/

/-- A heap of numpy arrays: handle ↦ array, plus the next fresh handle. -/
structure Store where
  data : ℕ → Sq
  next : ℕ

/-- In-place update of the array at handle `h`. -/
def storeWrite (st : Store) (h : ℕ) (s : Sq) : Store :=
  ⟨fun x => if x = h then s else st.data x, st.next⟩

/-- `transform_magic_square` as a heap program: the input handle is returned
    as is when the square is not magic; otherwise `deepcopy` allocates a copy
    at a fresh handle and every in-place operation of the loop writes only to
    that copy, whose handle is returned. -/
def transformProg (st : Store) (h : ℕ) (choices : List TChoice) : Store × ℕ :=
  if check_square_magic (st.data h) then
    let h1 := st.next
    let st1 : Store := ⟨fun x => if x = h1 then st.data h else st.data x, st.next + 1⟩
    let st2 := choices.foldl (fun acc c => storeWrite acc h1 (applyChoice (acc.data h1) c)) st1
    (st2, h1)
  else (st, h)

/-! ### The cipher layer, `cipher.py`.  Python strings are lists of code
    points: the filler `NO_SYMBOL = '_'` is 95 and the key delimiter is the
    single quote, 39. -/

def NO_SYMBOL : ℕ := 95

def DELIMITER : ℕ := 39

def MIN_BITS : ℕ := 4

/-- Search for the least `m` (starting from the third argument) with
    `x ≤ m * m`; the fuel `x + 1` passed by `ceilSqrt` always suffices. -/
def ceilSqrtF : ℕ → ℕ → ℕ → ℕ
  | 0, _, m => m
  | fuel + 1, x, m => if x ≤ m * m then m else ceilSqrtF fuel x (m + 1)

/-- `ceil(sqrt(x))`, the least `m` with `x ≤ m²` (`math.sqrt` is exact on the
    sizes concerned; see `ceilSqrt_spec`). -/
def ceilSqrt (x : ℕ) : ℕ := ceilSqrtF (x + 1) x 0

/-- Digits of Python `f"{v:b}"` without the leading `"0"` special case;
    `fuel` bounds the halving recursion (any `fuel` with `v < 2 ^ fuel`
    yields all digits, and the caller passes `fuel = v`). -/
def natToBinAux : ℕ → ℕ → List ℕ
  | 0, _ => []
  | fuel + 1, v =>
    if v = 0 then [] else natToBinAux fuel (v / 2) ++ [48 + v % 2]

/-- Python `f"{v:b}"`: minimal binary literal (code points of its digits). -/
def natToBin (v : ℕ) : List ℕ := if v = 0 then [48] else natToBinAux v v

/-- Python `f"{v:0{bits}b}"`: binary literal zero-padded to width `bits`. -/
def padBin (bits v : ℕ) : List ℕ :=
  List.replicate (bits - (natToBin v).length) 48 ++ natToBin v

/-- One binary digit accepted by `int(s, 2)` (plain ASCII form). -/
def binDigit (c : ℕ) : Option ℕ :=
  if c = 48 then some 0 else if c = 49 then some 1 else none

def binToNatAux (acc : ℕ) : List ℕ → Option ℕ
  | [] => some acc
  | c :: cs =>
    match binDigit c with
    | none => none
    | some d => binToNatAux (acc * 2 + d) cs

/-- Python `int(s, 2)` on plain nonnegative binary digit strings; a
    ValueError is `none`.  (The signed, whitespace and underscore forms `int`
    also accepts are outside this fragment; every key built by `encrypt` is
    inside it.) -/
def binToNat (s : List ℕ) : Option ℕ :=
  if s = [] then none else binToNatAux 0 s

/-- Python `str.split(delim)` for a single-character delimiter. -/
def splitOnChar (d : ℕ) : List ℕ → List (List ℕ)
  | [] => [[]]
  | c :: cs =>
    match splitOnChar d cs with
    | [] => [[]]
    | r :: rs => if c = d then [] :: r :: rs else (c :: r) :: rs

/-- The `bits = MIN_BITS; while max_val >= 2 ** bits: bits *= 2` loop, with
    an iteration bound: since `bits` doubles from a positive start, at most
    `max_val` iterations can keep `2 ** bits <= max_val`, so the bound
    `max_val + 1` passed by `growBits` is never hit. -/
def growBitsF : ℕ → ℕ → ℕ → ℕ
  | 0, _, bits => bits
  | fuel + 1, maxVal, bits =>
    if 2 ^ bits ≤ maxVal then growBitsF fuel maxVal (bits * 2) else bits

def growBits (maxVal bits : ℕ) : ℕ := growBitsF (maxVal + 1) maxVal bits

/-- Chunk recursion of `parseChunks`: each step consumes `bits ≥ 1` code
    points, so the bound `s.length + 1` passed by `parseChunks` is never
    hit. -/
def parseChunksGo (bits : ℕ) : ℕ → List ℕ → Option (List ℕ)
  | 0, _ => none
  | fuel + 1, s =>
    if s = [] then some []
    else
      match binToNat (s.take bits), parseChunksGo bits fuel (s.drop bits) with
      | some v, some rest => some (v :: rest)
      | _, _ => none

/-- The chunked parse `[int(key[i:i+bits], 2) for i in range(0, len(key), bits)]`.
    For `bits = 0` Python's `range` raises a ValueError (caught by the
    decrypt try-block), hence `none`. -/
def parseChunks (bits : ℕ) (s : List ℕ) : Option (List ℕ) :=
  if bits = 0 then none else parseChunksGo bits (s.length + 1) s

/-- The try-block of `decrypt`: split on the delimiter into exactly two
    parts (`bits, key = key.split(delimiter)` raises otherwise), parse the
    bit width, then the layout.  `none` = a caught ValueError. -/
def parse_key (delim : ℕ) (key : List ℕ) : Option (List ℕ) :=
  match splitOnChar delim key with
  | [bitsStr, blob] =>
    match binToNat bitsStr with
    | some bits => parseChunks bits blob
    | none => none
  | _ => none

/-- The try-block of `decrypt_enhanced`: three parts (bits, offset, layout). -/
def parse_key_enhanced (delim : ℕ) (key : List ℕ) : Option (ℕ × List ℕ) :=
  match splitOnChar delim key with
  | [bitsStr, offStr, blob] =>
    match binToNat bitsStr, binToNat offStr with
    | some bits, some off =>
      match parseChunks bits blob with
      | some layout => some (off, layout)
      | none => none
    | _, _ => none
  | _ => none

/-- String literals of the source as code-point lists. -/
def str2cp (s : String) : List ℕ := s.data.map Char.toNat

/-- `isinstance(sqrt(layout.size), int)`: `math.sqrt` returns a Python float,
    and no float is an instance of `int`, so the test is identically false
    whatever its argument. -/
def pyIsinstanceSqrtInt (_x : ℕ) : Bool := false

/-- `cipher.check_layout` (`len(np.unique(layout))` is the number of distinct
    values, `layout.dedup.length`). -/
def check_layout (layout : List ℕ) (text : List ℕ) : Bool × List ℕ :=
  if pyIsinstanceSqrtInt layout.length then (false, str2cp "Wrong key shape")
  else if text.length ≠ layout.length then (false, str2cp "Wrong key size")
  else if layout.dedup.length ≠ layout.length then (false, str2cp "Wrong key contents")
  else (true, str2cp "The key is right")

/-- One numpy element assignment `arr[v - 1] = content` on a string array of
    size `size`, with Python's negative-index wrap (`v = 0` gives index `-1`,
    the last cell) and an IndexError (`.error`) when out of range.  A cell
    holds the assigned string (`[]` is the empty string). -/
def npSet (size : ℕ) (cells : ℕ → List ℕ) (v : ℕ) (content : List ℕ) :
    Except Unit (ℕ → List ℕ) :=
  if v = 0 then
    if size = 0 then .error ()
    else .ok fun j => if j = size - 1 then content else cells j
  else if v - 1 < size then .ok fun j => if j = v - 1 then content else cells j
  else .error ()

/-- The decryption loop of `decrypt`: `plaintext[layout[i] - 1] = text[i]`,
    the pairs `(layout[i], cell content)` being supplied in loop order. -/
def writeCells (size : ℕ) : List (ℕ × List ℕ) → (ℕ → List ℕ) → Except Unit (ℕ → List ℕ)
  | [], cells => .ok cells
  | (v, content) :: ps, cells =>
    match npSet size cells v content with
    | .error e => .error e
    | .ok cells1 => writeCells size ps cells1

/-- Python `chr`: defined for code points below 0x110000, ValueError above
    (strings being code-point lists, the character is the point itself). -/
def pyChr (x : ℕ) : Except Unit ℕ :=
  if x < 1114112 then .ok x else .error ()

/-- The decryption loop of `decrypt_enhanced`:
    `plaintext[layout[i]-1] = chr(ord(text[i]) ^ offset) if text[i] != empty else ''`
    (the right-hand side is evaluated before the element assignment). -/
def writeCellsEnh (size off empty : ℕ) :
    List (ℕ × ℕ) → (ℕ → List ℕ) → Except Unit (ℕ → List ℕ)
  | [], cells => .ok cells
  | (v, t) :: ps, cells =>
    if t = empty then
      match npSet size cells v [] with
      | .error e => .error e
      | .ok cells1 => writeCellsEnh size off empty ps cells1
    else
      match pyChr (t ^^^ off) with
      | .error e => .error e
      | .ok ch =>
        match npSet size cells v [ch] with
        | .error e => .error e
        | .ok cells1 => writeCellsEnh size off empty ps cells1

/-- `cipher.decrypt`.  `.error ()` is an uncaught exception escaping the
    call (the only source is the IndexError of the decryption loop; the
    ValueErrors of the try-block are caught and reported as messages). -/
def decrypt (text key : List ℕ) (empty delim : ℕ) : Except Unit (Bool × List ℕ) :=
  if key.length = 0 then .ok (false, str2cp "Wrong key length")
  else
    match parse_key delim key with
    | none => .ok (false, str2cp "Wrong key format")
    | some layout =>
      match check_layout layout text with
      | (false, message) => .ok (false, message)
      | (true, _) =>
        match writeCells layout.length (layout.zip (text.map fun t => [t])) (fun _ => []) with
        | .error e => .error e
        | .ok cells =>
          .ok (true, ((List.range layout.length).flatMap cells).filter fun t => decide (t ≠ empty))

/-- `cipher.decrypt_enhanced` (no final `replace`: filler cells contribute
    the empty string instead). -/
def decrypt_enhanced (text key : List ℕ) (empty delim : ℕ) : Except Unit (Bool × List ℕ) :=
  if key.length = 0 then .ok (false, str2cp "Wrong key length")
  else
    match parse_key_enhanced delim key with
    | none => .ok (false, str2cp "Wrong key format")
    | some (off, layout) =>
      match check_layout layout text with
      | (false, message) => .ok (false, message)
      | (true, _) =>
        match writeCellsEnh layout.length off empty (layout.zip text) (fun _ => []) with
        | .error e => .error e
        | .ok cells => .ok (true, (List.range layout.length).flatMap cells)

/-- Python sequence read `l[i]` with negative-index wrap.  Out of range is
    mapped to 0 rather than to an IndexError: every use below indexes with a
    layout value in `1..len(text)`, where the two agree. -/
def pyIndex (l : List ℕ) (i : ℤ) : ℕ :=
  let j := if i < 0 then i + l.length else i
  if 0 ≤ j ∧ j < l.length then l.getD j.toNat 0 else 0

/-- The body of `encrypt` below the layout computation: the positional
    ciphertext (`text[layout[i] - 1]` where `layout[i] <= len(text)`, the
    filler elsewhere) and the bit-packed key
    `f"{bits:b}{delimiter}{key}"`. -/
def encryptBody (text layout : List ℕ) (empty delim : ℕ) : List ℕ × List ℕ :=
  let text_len := text.length
  let ciphertext := (List.range layout.length).map fun i =>
    if layout.getD i 0 ≤ text_len then pyIndex text ((layout.getD i 0 : ℤ) - 1) else empty
  let max_val := layout.foldl max 0
  let bits := growBits max_val MIN_BITS
  let key := natToBin bits ++ delim :: layout.flatMap (padBin bits)
  (key, ciphertext)

/-- `cipher.encrypt`, the transformation draws passed explicitly. -/
def encrypt (text : List ℕ) (choices : List TChoice) (empty delim : ℕ) :
    List ℕ × List ℕ :=
  encryptBody text
    (transform_magic_square (create_square (ceilSqrt text.length)) choices).flatten
    empty delim

/-- The collision test of the filler-adjustment loop of `encrypt_enhanced`:
    does some `ord(text[i]) ^ layout[i]` equal the candidate filler?  (The
    source XORs against the LAYOUT value here — not against the offset.) -/
def hasCollision (text layout : List ℕ) (e : ℕ) : Bool :=
  (List.range text.length).any fun i => (text.getD i 0) ^^^ (layout.getD i 0) == e

/-- The `while unchecked:` loop of `encrypt_enhanced`: bump the filler while
    a collision exists.  `fuel` bounds the loop; the caller passes
    `len(text) + 1` bumps, which always suffice since at most `len(text)`
    distinct values can collide. -/
def adjustFiller (text layout : List ℕ) (e : ℕ) : ℕ → ℕ
  | 0 => e
  | fuel + 1 =>
    if hasCollision text layout e then adjustFiller text layout (e + 1) fuel else e

/-- The body of `encrypt_enhanced` below the layout computation: mapped
    positions hold `chr(ord(text[layout[i] - 1]) ^ offset)`, the rest the
    adjusted filler; the key is `f"{bits:b}{delim}{offset:b}{delim}{key}"`. -/
def encryptEnhBody (text layout : List ℕ) (off empty delim : ℕ) : List ℕ × List ℕ :=
  let text_len := text.length
  let empty1 := adjustFiller text layout empty (text.length + 1)
  let ciphertext := (List.range layout.length).map fun i =>
    if layout.getD i 0 ≤ text_len then (pyIndex text ((layout.getD i 0 : ℤ) - 1)) ^^^ off
    else empty1
  let max_val := layout.foldl max 0
  let bits := growBits max_val MIN_BITS
  let key := natToBin bits ++ delim :: (natToBin off ++ delim :: layout.flatMap (padBin bits))
  (key, ciphertext)

/-- `cipher.encrypt_enhanced`; `off` is the draw `randint(0, layout.shape[0])`
    (both endpoints included, so `0 ≤ off ≤ n²`). -/
def encrypt_enhanced (text : List ℕ) (choices : List TChoice) (off empty delim : ℕ) :
    List ℕ × List ℕ :=
  encryptEnhBody text
    (transform_magic_square (create_square (ceilSqrt text.length)) choices).flatten
    off empty delim

/-- A square given by its rows (for concrete counterexample grids). -/
def sqOfLists (ll : List (List ℕ)) : Sq :=
  ⟨ll.length, fun r c => (ll.getD r []).getD c 0⟩

/-- A 4×4 magic square that is NOT centrally symmetric (1 + 9 ≠ 17). -/
def S4cex : Sq :=
  sqOfLists [[1, 2, 15, 16], [13, 14, 3, 4], [12, 7, 10, 5], [8, 11, 6, 9]]

/-- The cells of the square carry pairwise distinct values, each in `1..n²`
    (so the flattened square is a layout whose writes all land in bounds and
    cover every plaintext position exactly once). -/
def cellPerm (s : Sq) : Prop :=
  ∀ r < s.n, ∀ c < s.n,
    (1 ≤ s.a r c ∧ s.a r c ≤ s.n * s.n)
      ∧ ∀ r2 < s.n, ∀ c2 < s.n, s.a r c = s.a r2 c2 → r = r2 ∧ c = c2

set_option synthInstance.maxSize 1000 in
instance (s : Sq) : Decidable (cellPerm s) := by
  unfold cellPerm
  infer_instance

/-! ### Theorems -/

/-- C5: for every order n ∈ {3, 4, 5, 8, 9, 12}, `create_square n` terminates
    and returns an n×n grid whose flattened values are exactly {1, …, n²} and
    which satisfies `check_square_magic`, i.e. every row sum, column sum and
    both main-diagonal sums equal n(n²+1)/2. -/
theorem C5_create_square_magic :
    ((create_square 3).n = 3 ∧ check_square_magic (create_square 3) = true
      ∧ List.Perm (create_square 3).flatten (List.range' 1 9))
    ∧ ((create_square 4).n = 4 ∧ check_square_magic (create_square 4) = true
      ∧ List.Perm (create_square 4).flatten (List.range' 1 16))
    ∧ ((create_square 5).n = 5 ∧ check_square_magic (create_square 5) = true
      ∧ List.Perm (create_square 5).flatten (List.range' 1 25))
    ∧ ((create_square 8).n = 8 ∧ check_square_magic (create_square 8) = true
      ∧ List.Perm (create_square 8).flatten (List.range' 1 64))
    ∧ ((create_square 9).n = 9 ∧ check_square_magic (create_square 9) = true
      ∧ List.Perm (create_square 9).flatten (List.range' 1 81))
    ∧ ((create_square 12).n = 12 ∧ check_square_magic (create_square 12) = true
      ∧ List.Perm (create_square 12).flatten (List.range' 1 144)) := by
  decide

/-- C7: `check_layout` never returns the "Wrong key shape" error, whatever the
    layout and ciphertext: `isinstance(sqrt(layout.size), int)` is identically
    false in Python (math.sqrt returns a float), so no key is ever rejected
    for a non-square element count. -/
theorem C7_shape_check_dead (layout text : List ℕ) :
    (check_layout layout text).2 ≠ str2cp "Wrong key shape" := by
  unfold check_layout pyIsinstanceSqrtInt
  split_ifs <;> simp_all <;> decide

/-- C2 counterexample: a magic (but not centrally symmetric) 4×4 square, for
    which the row-pair swap operation — reachable for order 4 — yields a
    square that fails `check_square_magic`: its main diagonal sums to 26. -/
theorem C2_cex :
    check_square_magic S4cex = true
    ∧ validChoice S4cex.n (.pairSwap false 0 1) = true
    ∧ check_square_magic (transform_magic_square S4cex [.pairSwap false 0 1]) = false := by
  decide

/-- C4 counterexample: for order 3 the draw `operation = randint(0, 2)` can
    return 2, so the symmetric row/column swap is a reachable iteration; it is
    not a rotation, and on the generated 3×3 square its result differs from
    the result of either rotation (and from the square itself). -/
theorem C4_cex :
    validChoice 3 (.symSwap 0) = true
    ∧ TChoice.symSwap 0 ≠ .rotCCW ∧ TChoice.symSwap 0 ≠ .rotCW
    ∧ (transform_magic_square (create_square 3) [.symSwap 0]).flatten
        ≠ (transform_magic_square (create_square 3) [.rotCCW]).flatten
    ∧ (transform_magic_square (create_square 3) [.symSwap 0]).flatten
        ≠ (transform_magic_square (create_square 3) [.rotCW]).flatten
    ∧ (transform_magic_square (create_square 3) [.symSwap 0]).flatten
        ≠ (create_square 3).flatten := by
  decide

/-- C4 (amended): for order 3, or an even order that is not a multiple of 4,
    each iteration draws one of rotate-ccw, rotate-cw or the symmetric swap
    (operations 0–2) — the paired row/column swaps are unreachable; for the
    remaining orders ≥ 4 all four operation kinds are reachable. -/
theorem C4_amended :
    (∀ n c, (n = 3 ∨ (n % 4 ≠ 0 ∧ n % 2 = 0)) →
      (validChoice n c = true ↔
        (c = .rotCCW ∨ c = .rotCW ∨ ∃ i, i ≤ n - 1 ∧ c = .symSwap i)))
    ∧ (∀ n, ¬(n = 3 ∨ (n % 4 ≠ 0 ∧ n % 2 = 0)) → 4 ≤ n →
      validChoice n .rotCCW = true ∧ validChoice n .rotCW = true
      ∧ (∀ i, i ≤ n - 1 → validChoice n (.symSwap i) = true)
      ∧ validChoice n (.pairSwap false 0 1) = true
      ∧ validChoice n (.pairSwap true 0 1) = true) := by
  constructor
  · intro n c h
    have ht : twoOpsOnly n = true := by simp [twoOpsOnly]; tauto
    cases c with
    | rotCCW => simp [validChoice]
    | rotCW => simp [validChoice]
    | symSwap i =>
        simp only [validChoice, decide_eq_true_eq]
        constructor
        · intro hi
          exact Or.inr (Or.inr ⟨i, hi, rfl⟩)
        · rintro (h' | h' | ⟨i', hi', h'⟩) <;> simp_all
    | pairSwap b i j => simp [validChoice, ht]
  · intro n hn h4
    have ht : twoOpsOnly n = false := by
      simp only [twoOpsOnly, decide_eq_false_iff_not]; exact hn
    have hps : ∀ b, validChoice n (.pairSwap b 0 1) = true := by
      intro b
      simp only [validChoice, ht, Bool.not_false, Bool.true_and]
      by_cases h45 : n = 4 ∨ n = 5
      · simp [h45]
      · have h6 : 6 ≤ n := by omega
        simp only [h45, if_false, decide_eq_true_eq]
        refine ⟨Nat.zero_le _, le_refl 1, ?_⟩
        omega
    refine ⟨rfl, rfl, ?_, hps false, hps true⟩
    intro i hi
    simp [validChoice, hi]

/-- C4 witness: two reachable draws obtained from `C4_amended` at concrete
    orders. -/
theorem C4_amended_witness :
    validChoice 8 (.pairSwap false 0 1) = true ∧ validChoice 6 (.symSwap 5) = true :=
  ⟨(C4_amended.2 8 (by decide) (by decide)).2.2.2.1,
   (C4_amended.1 6 (.symSwap 5) (by decide)).mpr
     (Or.inr (Or.inr ⟨5, by decide, rfl⟩))⟩

/-- C1 counterexample: the one-character text "_" (the default filler) with
    zero transformations encrypts and then decrypts — with the default filler
    and delimiter — to the empty string, not to the original text: the final
    `replace(empty, '')` of `decrypt` also strips original characters. -/
theorem C1_cex :
    decrypt (encrypt [95] [] 95 39).2 (encrypt [95] [] 95 39).1 95 39
      = .ok (true, [])
    ∧ ([] : List ℕ) ≠ [95] :=
  ⟨rfl, by decide⟩

/-- C6: the filler-adjustment loop of `encrypt_enhanced` compares
    `ord(text[i]) ^ layout[i]` — not `ord(text[i]) ^ offset` — against the
    filler, so a mapped ciphertext position can still carry the filler
    character.  Failing input: text "Z" (code 90), zero transformations,
    offset draw 5.  The loop leaves the filler at 95 although
    90 ^ 5 = 95, the whole ciphertext becomes filler, and the enhanced
    round trip loses the character. -/
theorem C6_filler_collision :
    adjustFiller [90]
        (transform_magic_square (create_square (ceilSqrt 1)) []).flatten 95 2 = 95
    ∧ (transform_magic_square (create_square (ceilSqrt 1)) []).flatten.getD 1 0 = 1
    ∧ (90 ^^^ 5 : ℕ) = 95
    ∧ (encrypt_enhanced [90] [] 5 95 39).2 = [95, 95, 95, 95, 95, 95, 95, 95, 95]
    ∧ decrypt_enhanced (encrypt_enhanced [90] [] 5 95 39).2
        (encrypt_enhanced [90] [] 5 95 39).1 95 39 = .ok (true, []) := by
  refine ⟨rfl, rfl, rfl, rfl, rfl⟩

/-- Distinct-count characterisation used by `check_layout`'s third test. -/
theorem dedup_length_eq_iff_nodup (l : List ℕ) :
    l.dedup.length = l.length ↔ l.Nodup := by
  constructor
  · intro h
    have hs : l.dedup.Sublist l := List.dedup_sublist l
    have : l.dedup = l := hs.eq_of_length h
    rw [← this]
    exact l.nodup_dedup
  · intro h
    rw [List.dedup_eq_self.mpr h]

/-- C8: a key that parses to a layout of the right length but with a
    duplicated value is rejected by `decrypt` with status `false` and the
    message "Wrong key contents". -/
theorem C8_duplicate_contents (text key layout : List ℕ)
    (hp : parse_key DELIMITER key = some layout)
    (hlen : layout.length = text.length)
    (hdup : ¬ layout.Nodup) :
    decrypt text key NO_SYMBOL DELIMITER = .ok (false, str2cp "Wrong key contents") := by
  have hk : key.length ≠ 0 := by
    intro h0
    rw [List.length_eq_zero] at h0
    subst h0
    simp [parse_key, splitOnChar] at hp
  have hcl : check_layout layout text = (false, str2cp "Wrong key contents") := by
    have hd : layout.dedup.length ≠ layout.length := by
      intro h
      exact hdup ((dedup_length_eq_iff_nodup layout).mp h)
    unfold check_layout pyIsinstanceSqrtInt
    rw [if_neg (by simp)]
    rw [if_neg (by simp [hlen])]
    rw [if_pos hd]
  unfold decrypt
  rw [if_neg hk]
  simp only [hp, hcl]

/-- C8 witness: the concrete key `100'00010001` (bits = 4, layout `[1, 1]`)
    against a two-character ciphertext. -/
theorem C8_witness :
    decrypt [65, 66] (str2cp "100'00010001") NO_SYMBOL DELIMITER
      = .ok (false, str2cp "Wrong key contents") :=
  C8_duplicate_contents [65, 66] (str2cp "100'00010001") [1, 1] (by decide)
    (by decide) (by decide)

/-- Writes through the transformation loop touch only the freshly allocated
    copy. -/
theorem store_fold_data_ne (h h1 : ℕ) (hne : h ≠ h1) :
    ∀ (choices : List TChoice) (acc : Store),
      ((choices.foldl (fun acc c => storeWrite acc h1 (applyChoice (acc.data h1) c)) acc).data h)
        = acc.data h := by
  intro choices
  induction choices with
  | nil => intro acc; rfl
  | cons c cs ih =>
      intro acc
      rw [List.foldl_cons, ih]
      simp [storeWrite, hne]

/-- C9: `transform_magic_square` never mutates the caller's square: in the
    heap model `transformProg`, the array at any pre-existing handle is
    unchanged by the call — the loop works on a private deep copy at a fresh
    handle (and the not-magic early return performs no write at all). -/
theorem C9_no_mutation (st : Store) (h : ℕ) (choices : List TChoice)
    (hh : h < st.next) :
    ((transformProg st h choices).1).data h = st.data h := by
  unfold transformProg
  by_cases hc : check_square_magic (st.data h) = true
  · rw [if_pos hc]
    have hne : h ≠ st.next := by omega
    rw [store_fold_data_ne h st.next hne]
    simp [hne]
  · rw [if_neg hc]

/-- C9 witness: a one-array heap holding the generated 3×3 square, one
    rotation applied. -/
theorem C9_no_mutation_witness :
    ((transformProg ⟨fun _ => create_square 3, 1⟩ 0 [.rotCCW]).1).data 0
      = (Store.mk (fun _ => create_square 3) 1).data 0 :=
  C9_no_mutation ⟨fun _ => create_square 3, 1⟩ 0 [.rotCCW] (by decide)

/-! ### Preservation of the magic property under the transformation
    operations (for centrally symmetric squares). -/

/-- Proposition form of `check_square_magic`. -/
def isMagic (s : Sq) : Prop :=
  (∀ i < s.n, rowSum s i = magicConst s.n ∧ colSum s i = magicConst s.n)
    ∧ diagSum s = magicConst s.n ∧ antidiagSum s = magicConst s.n

theorem check_square_magic_iff (s : Sq) :
    check_square_magic s = true ↔ isMagic s := by
  unfold check_square_magic isMagic
  exact decide_eq_true_iff

theorem swapIdx_invol (i j x : ℕ) : swapIdx i j (swapIdx i j x) = x := by
  unfold swapIdx
  split_ifs <;> omega

theorem swapIdx_lt {n : ℕ} (i j x : ℕ) (hi : i < n) (hj : j < n) (hx : x < n) :
    swapIdx i j x < n := by
  unfold swapIdx
  split_ifs <;> omega

/-- Reindexing a range sum by a transposition of two indices below `n`. -/
theorem sum_swapIdx {n : ℕ} (i j : ℕ) (hi : i < n) (hj : j < n) (f : ℕ → ℕ) :
    ∑ x ∈ Finset.range n, f (swapIdx i j x) = ∑ x ∈ Finset.range n, f x := by
  refine Finset.sum_nbij' (swapIdx i j) (swapIdx i j) ?_ ?_ ?_ ?_ ?_
  · intro a ha
    exact Finset.mem_range.mpr (swapIdx_lt i j a hi hj (Finset.mem_range.mp ha))
  · intro a ha
    exact Finset.mem_range.mpr (swapIdx_lt i j a hi hj (Finset.mem_range.mp ha))
  · intro a _
    exact swapIdx_invol i j a
  · intro a _
    exact swapIdx_invol i j a
  · intro a _
    rfl

/-- If consecutive and reflected terms pair up to the constant `K`, the sum is
    determined: `2 Σ f = n K`. -/
theorem two_mul_sum_of_pairs {n K : ℕ} (f : ℕ → ℕ)
    (h : ∀ r < n, f r + f (n - 1 - r) = K) :
    2 * ∑ r ∈ Finset.range n, f r = n * K := by
  have h1 : ∑ r ∈ Finset.range n, f (n - 1 - r) = ∑ r ∈ Finset.range n, f r :=
    Finset.sum_range_reflect f n
  have h2 : (∑ r ∈ Finset.range n, f r) + ∑ r ∈ Finset.range n, f (n - 1 - r)
      = ∑ r ∈ Finset.range n, (f r + f (n - 1 - r)) :=
    Finset.sum_add_distrib.symm
  have h3 : ∑ r ∈ Finset.range n, (f r + f (n - 1 - r))
      = ∑ _r ∈ Finset.range n, K :=
    Finset.sum_congr rfl fun r hr => h r (Finset.mem_range.mp hr)
  have h4 : ∑ _r ∈ Finset.range n, K = n * K := by
    rw [Finset.sum_const, Finset.card_range, smul_eq_mul]
  omega

theorem isMagic_of_n_zero (s : Sq) (h : s.n = 0) : isMagic s := by
  unfold isMagic rowSum colSum diagSum antidiagSum magicConst
  rw [h]
  simp

theorem centralSym_of_n_zero (s : Sq) (h : s.n = 0) : centralSym s := by
  unfold centralSym
  rw [h]
  omega

theorem applyChoice_n (s : Sq) (c : TChoice) : (applyChoice s c).n = s.n := by
  cases c with
  | rotCCW => rfl
  | rotCW => rfl
  | symSwap i => rfl
  | pairSwap b i j => cases b <;> rfl

/-- `2 * magicConst n = n * (n² + 1)` (the product is always even). -/
theorem two_mul_magicConst (n : ℕ) : 2 * magicConst n = n * (n ^ 2 + 1) := by
  unfold magicConst
  have h2 : 2 ∣ n * (n ^ 2 + 1) := by
    rcases Nat.even_or_odd n with he | ho
    · exact Dvd.dvd.mul_right he.two_dvd _
    · have h1 : Odd (n ^ 2) := ho.pow
      have h3 : n ^ 2 % 2 = 1 := Nat.odd_iff.mp h1
      exact Dvd.dvd.mul_left (by omega) n
  exact Nat.mul_div_cancel' h2

/-- A transformation acting separately on row indices and on column indices
    via maps that fix the index range, preserve range sums, and commute with
    reflection preserves the magic property and central symmetry. -/
theorem reindex_preserves (s : Sq) (ρ σ : ℕ → ℕ)
    (hm : isMagic s) (hsym : centralSym s)
    (hρ : ∀ r, r < s.n → ρ r < s.n) (hσ : ∀ c, c < s.n → σ c < s.n)
    (hρs : ∀ f : ℕ → ℕ,
      ∑ x ∈ Finset.range s.n, f (ρ x) = ∑ x ∈ Finset.range s.n, f x)
    (hσs : ∀ f : ℕ → ℕ,
      ∑ x ∈ Finset.range s.n, f (σ x) = ∑ x ∈ Finset.range s.n, f x)
    (hρr : ∀ r, r < s.n → ρ (s.n - 1 - r) = s.n - 1 - ρ r)
    (hσr : ∀ c, c < s.n → σ (s.n - 1 - c) = s.n - 1 - σ c) :
    isMagic ⟨s.n, fun r c => s.a (ρ r) (σ c)⟩
      ∧ centralSym ⟨s.n, fun r c => s.a (ρ r) (σ c)⟩ := by
  obtain ⟨hrc, hdiag, hanti⟩ := hm
  rcases Nat.eq_zero_or_pos s.n with h0 | hpos
  · exact ⟨isMagic_of_n_zero _ h0, centralSym_of_n_zero _ h0⟩
  have hsym' : ∀ x y, x < s.n → y < s.n →
      s.a x y + s.a (s.n - 1 - x) (s.n - 1 - y) = s.n ^ 2 + 1 := by
    intro x y hx hy
    have h := hsym x hx y hy
    have e1 : s.n - x - 1 = s.n - 1 - x := by omega
    have e2 : s.n - y - 1 = s.n - 1 - y := by omega
    rw [e1, e2] at h
    exact h
  constructor
  · refine ⟨?_, ?_, ?_⟩
    · intro i hi
      have hi' : i < s.n := hi
      constructor
      · show (∑ c ∈ Finset.range s.n, s.a (ρ i) (σ c)) = magicConst s.n
        rw [hσs (fun c => s.a (ρ i) c)]
        exact (hrc (ρ i) (hρ i hi')).1
      · show (∑ r ∈ Finset.range s.n, s.a (ρ r) (σ i)) = magicConst s.n
        rw [hρs (fun r => s.a r (σ i))]
        exact (hrc (σ i) (hσ i hi')).2
    · show (∑ r ∈ Finset.range s.n, s.a (ρ r) (σ r)) = magicConst s.n
      have hpair : ∀ r, r < s.n →
          s.a (ρ r) (σ r) + s.a (ρ (s.n - 1 - r)) (σ (s.n - 1 - r)) = s.n ^ 2 + 1 := by
        intro r hr
        rw [hρr r hr, hσr r hr]
        exact hsym' (ρ r) (σ r) (hρ r hr) (hσ r hr)
      have h1 := two_mul_sum_of_pairs (fun r => s.a (ρ r) (σ r)) hpair
      have h3 : 2 * ∑ r ∈ Finset.range s.n, s.a (ρ r) (σ r) = 2 * magicConst s.n := by
        rw [two_mul_magicConst]
        exact h1
      exact Nat.eq_of_mul_eq_mul_left (by norm_num) h3
    · show (∑ r ∈ Finset.range s.n, s.a (ρ r) (σ (s.n - r - 1))) = magicConst s.n
      have hpair : ∀ r, r < s.n →
          s.a (ρ r) (σ (s.n - r - 1))
            + s.a (ρ (s.n - 1 - r)) (σ (s.n - (s.n - 1 - r) - 1)) = s.n ^ 2 + 1 := by
        intro r hr
        have hr2 : s.n - r - 1 < s.n := by omega
        have e0 : s.n - 1 - (s.n - r - 1) = r := by omega
        have e1 : s.n - (s.n - 1 - r) - 1 = r := by omega
        have hσe : σ r = s.n - 1 - σ (s.n - r - 1) := by
          have h := hσr (s.n - r - 1) hr2
          rw [e0] at h
          exact h
        rw [e1, hρr r hr, hσe]
        exact hsym' (ρ r) (σ (s.n - r - 1)) (hρ r hr) (hσ _ hr2)
      have h1 := two_mul_sum_of_pairs (fun r => s.a (ρ r) (σ (s.n - r - 1))) hpair
      have h3 : 2 * ∑ r ∈ Finset.range s.n, s.a (ρ r) (σ (s.n - r - 1))
          = 2 * magicConst s.n := by
        rw [two_mul_magicConst]
        exact h1
      exact Nat.eq_of_mul_eq_mul_left (by norm_num) h3
  · intro r hr c hc
    have hr' : r < s.n := hr
    have hc' : c < s.n := hc
    show s.a (ρ r) (σ c) + s.a (ρ (s.n - r - 1)) (σ (s.n - c - 1)) = s.n ^ 2 + 1
    have e1 : s.n - r - 1 = s.n - 1 - r := by omega
    have e2 : s.n - c - 1 = s.n - 1 - c := by omega
    rw [e1, e2, hρr r hr', hσr c hc']
    exact hsym' (ρ r) (σ c) (hρ r hr') (hσ c hc')

/-- Rotation counterclockwise preserves magic and symmetry. -/
theorem rotCCW_preserves (s : Sq) (hm : isMagic s) (hsym : centralSym s) :
    isMagic (rot90ccw s) ∧ centralSym (rot90ccw s) := by
  obtain ⟨hrc, hdiag, hanti⟩ := hm
  rcases Nat.eq_zero_or_pos s.n with h0 | hpos
  · exact ⟨isMagic_of_n_zero _ h0, centralSym_of_n_zero _ h0⟩
  have hsym' : ∀ x y, x < s.n → y < s.n →
      s.a x y + s.a (s.n - 1 - x) (s.n - 1 - y) = s.n ^ 2 + 1 := by
    intro x y hx hy
    have h := hsym x hx y hy
    have e1 : s.n - x - 1 = s.n - 1 - x := by omega
    have e2 : s.n - y - 1 = s.n - 1 - y := by omega
    rw [e1, e2] at h
    exact h
  constructor
  · refine ⟨?_, ?_, ?_⟩
    · intro i hi
      have hi' : i < s.n := hi
      constructor
      · exact (hrc (s.n - 1 - i) (by omega)).2
      · show (∑ r ∈ Finset.range s.n, s.a i (s.n - 1 - r)) = magicConst s.n
        rw [Finset.sum_range_reflect (fun x => s.a i x) s.n]
        exact (hrc i hi').1
    · show (∑ r ∈ Finset.range s.n, s.a r (s.n - 1 - r)) = magicConst s.n
      have he : ∀ r ∈ Finset.range s.n, s.a r (s.n - 1 - r) = s.a r (s.n - r - 1) := by
        intro r _
        congr 1
        omega
      rw [Finset.sum_congr rfl he]
      exact hanti
    · show (∑ r ∈ Finset.range s.n, s.a (s.n - r - 1) (s.n - 1 - r)) = magicConst s.n
      have he : ∀ r ∈ Finset.range s.n,
          s.a (s.n - r - 1) (s.n - 1 - r) = (fun x => s.a x x) (s.n - 1 - r) := by
        intro r _
        simp only
        congr 1
        omega
      rw [Finset.sum_congr rfl he, Finset.sum_range_reflect (fun x => s.a x x) s.n]
      exact hdiag
  · intro r hr c hc
    have hr' : r < s.n := hr
    have hc' : c < s.n := hc
    show s.a c (s.n - 1 - r) + s.a (s.n - c - 1) (s.n - 1 - (s.n - r - 1)) = s.n ^ 2 + 1
    have e1 : s.n - 1 - (s.n - r - 1) = r := by omega
    rw [e1]
    have h := hsym' c (s.n - 1 - r) hc' (by omega)
    have e2 : s.n - 1 - (s.n - 1 - r) = r := by omega
    rw [e2] at h
    have e3 : s.n - c - 1 = s.n - 1 - c := by omega
    rw [e3]
    exact h

/-- Rotation clockwise preserves magic and symmetry. -/
theorem rotCW_preserves (s : Sq) (hm : isMagic s) (hsym : centralSym s) :
    isMagic (rot90cw s) ∧ centralSym (rot90cw s) := by
  obtain ⟨hrc, hdiag, hanti⟩ := hm
  rcases Nat.eq_zero_or_pos s.n with h0 | hpos
  · exact ⟨isMagic_of_n_zero _ h0, centralSym_of_n_zero _ h0⟩
  have hsym' : ∀ x y, x < s.n → y < s.n →
      s.a x y + s.a (s.n - 1 - x) (s.n - 1 - y) = s.n ^ 2 + 1 := by
    intro x y hx hy
    have h := hsym x hx y hy
    have e1 : s.n - x - 1 = s.n - 1 - x := by omega
    have e2 : s.n - y - 1 = s.n - 1 - y := by omega
    rw [e1, e2] at h
    exact h
  constructor
  · refine ⟨?_, ?_, ?_⟩
    · intro i hi
      have hi' : i < s.n := hi
      constructor
      · show (∑ c ∈ Finset.range s.n, s.a (s.n - 1 - c) i) = magicConst s.n
        rw [Finset.sum_range_reflect (fun x => s.a x i) s.n]
        exact (hrc i hi').2
      · exact (hrc (s.n - 1 - i) (by omega)).1
    · show (∑ r ∈ Finset.range s.n, s.a (s.n - 1 - r) r) = magicConst s.n
      have he : ∀ r ∈ Finset.range s.n,
          s.a (s.n - 1 - r) r = (fun x => s.a x (s.n - x - 1)) (s.n - 1 - r) := by
        intro r hr
        have hr' : r < s.n := Finset.mem_range.mp hr
        simp only
        congr 1
        omega
      rw [Finset.sum_congr rfl he,
        Finset.sum_range_reflect (fun x => s.a x (s.n - x - 1)) s.n]
      exact hanti
    · show (∑ r ∈ Finset.range s.n, s.a (s.n - 1 - (s.n - r - 1)) r) = magicConst s.n
      have he : ∀ r ∈ Finset.range s.n, s.a (s.n - 1 - (s.n - r - 1)) r = s.a r r := by
        intro r hr
        have hr' : r < s.n := Finset.mem_range.mp hr
        congr 1
        omega
      rw [Finset.sum_congr rfl he]
      exact hdiag
  · intro r hr c hc
    have hr' : r < s.n := hr
    have hc' : c < s.n := hc
    show s.a (s.n - 1 - c) r + s.a (s.n - 1 - (s.n - c - 1)) (s.n - r - 1) = s.n ^ 2 + 1
    have h := hsym' (s.n - 1 - c) r (by omega) hr'
    have e1 : s.n - 1 - (s.n - 1 - c) = c := by omega
    rw [e1] at h
    have e2 : s.n - 1 - (s.n - c - 1) = c := by omega
    have e3 : s.n - r - 1 = s.n - 1 - r := by omega
    rw [e2, e3]
    exact h

/-- Operation 2 (symmetric swap) preserves magic and symmetry. -/
theorem symSwap_preserves (s : Sq) (i : ℕ) (hi : i ≤ s.n - 1)
    (hm : isMagic s) (hsym : centralSym s) :
    isMagic (applyChoice s (.symSwap i)) ∧ centralSym (applyChoice s (.symSwap i)) := by
  rcases Nat.eq_zero_or_pos s.n with h0 | hpos
  · exact ⟨isMagic_of_n_zero _ (by rw [applyChoice_n]; exact h0),
      centralSym_of_n_zero _ (by rw [applyChoice_n]; exact h0)⟩
  have hin : i < s.n := by omega
  have hBn : s.n - 1 - i < s.n := by omega
  have heq : applyChoice s (.symSwap i)
      = ⟨s.n, fun r c =>
          s.a (swapIdx i (s.n - 1 - i) r) (swapIdx i (s.n - 1 - i) c)⟩ := rfl
  rw [heq]
  apply reindex_preserves s _ _ ⟨hm.1, hm.2.1, hm.2.2⟩ hsym
  · intro r hr
    exact swapIdx_lt _ _ _ hin hBn hr
  · intro c hc
    exact swapIdx_lt _ _ _ hin hBn hc
  · intro f
    exact sum_swapIdx _ _ hin hBn f
  · intro f
    exact sum_swapIdx _ _ hin hBn f
  · intro r hr
    unfold swapIdx
    split_ifs <;> omega
  · intro c hc
    unfold swapIdx
    split_ifs <;> omega

/-- Operation 3 (swap rows i, j and their opposites) preserves magic and
    symmetry of centrally symmetric squares. -/
theorem pairRows_preserves (s : Sq) (i j : ℕ) (hij : i < j) (h2j : 2 * j + 2 ≤ s.n)
    (hm : isMagic s) (hsym : centralSym s) :
    isMagic (applyChoice s (.pairSwap false i j))
      ∧ centralSym (applyChoice s (.pairSwap false i j)) := by
  have hin : i < s.n := by omega
  have hjn : j < s.n := by omega
  have hin' : s.n - 1 - i < s.n := by omega
  have hjn' : s.n - 1 - j < s.n := by omega
  have heq : applyChoice s (.pairSwap false i j)
      = ⟨s.n, fun r c =>
          s.a (swapIdx i j (swapIdx (s.n - 1 - i) (s.n - 1 - j) r)) c⟩ := rfl
  rw [heq]
  apply reindex_preserves s _ (fun c => c) ⟨hm.1, hm.2.1, hm.2.2⟩ hsym
  · intro r hr
    exact swapIdx_lt _ _ _ hin hjn (swapIdx_lt _ _ _ hin' hjn' hr)
  · intro c hc
    exact hc
  · intro f
    rw [sum_swapIdx (s.n - 1 - i) (s.n - 1 - j) hin' hjn' (fun y => f (swapIdx i j y))]
    exact sum_swapIdx i j hin hjn f
  · intro f
    rfl
  · intro r hr
    unfold swapIdx
    split_ifs <;> omega
  · intro c hc
    rfl

/-- Operation 4 (swap columns i, j and their opposites) preserves magic and
    symmetry of centrally symmetric squares. -/
theorem pairCols_preserves (s : Sq) (i j : ℕ) (hij : i < j) (h2j : 2 * j + 2 ≤ s.n)
    (hm : isMagic s) (hsym : centralSym s) :
    isMagic (applyChoice s (.pairSwap true i j))
      ∧ centralSym (applyChoice s (.pairSwap true i j)) := by
  have hin : i < s.n := by omega
  have hjn : j < s.n := by omega
  have hin' : s.n - 1 - i < s.n := by omega
  have hjn' : s.n - 1 - j < s.n := by omega
  have heq : applyChoice s (.pairSwap true i j)
      = ⟨s.n, fun r c =>
          s.a r (swapIdx i j (swapIdx (s.n - 1 - i) (s.n - 1 - j) c))⟩ := rfl
  rw [heq]
  apply reindex_preserves s (fun r => r) _ ⟨hm.1, hm.2.1, hm.2.2⟩ hsym
  · intro r hr
    exact hr
  · intro c hc
    exact swapIdx_lt _ _ _ hin hjn (swapIdx_lt _ _ _ hin' hjn' hc)
  · intro f
    rfl
  · intro f
    rw [sum_swapIdx (s.n - 1 - i) (s.n - 1 - j) hin' hjn' (fun y => f (swapIdx i j y))]
    exact sum_swapIdx i j hin hjn f
  · intro r hr
    rfl
  · intro c hc
    unfold swapIdx
    split_ifs <;> omega

/-- Every reachable iteration of the transformation loop preserves magic and
    central symmetry. -/
theorem applyChoice_preserves (s : Sq) (c : TChoice)
    (hv : validChoice s.n c = true) (hm : isMagic s) (hsym : centralSym s) :
    isMagic (applyChoice s c) ∧ centralSym (applyChoice s c) := by
  cases c with
  | rotCCW => exact rotCCW_preserves s hm hsym
  | rotCW => exact rotCW_preserves s hm hsym
  | symSwap i =>
      have hi : i ≤ s.n - 1 := by
        simpa [validChoice] using hv
      exact symSwap_preserves s i hi hm hsym
  | pairSwap b i j =>
      simp only [validChoice, Bool.and_eq_true] at hv
      obtain ⟨-, h2⟩ := hv
      have hij : i < j ∧ 2 * j + 2 ≤ s.n := by
        by_cases h45 : s.n = 4 ∨ s.n = 5
        · rw [if_pos h45] at h2
          have := of_decide_eq_true h2
          omega
        · rw [if_neg h45] at h2
          have := of_decide_eq_true h2
          omega
      cases b with
      | false => exact pairRows_preserves s i j hij.1 hij.2 hm hsym
      | true => exact pairCols_preserves s i j hij.1 hij.2 hm hsym

/-- The whole transformation loop preserves magic, symmetry and the order. -/
theorem foldl_preserves (choices : List TChoice) :
    ∀ s : Sq, (∀ c ∈ choices, validChoice s.n c = true) → isMagic s → centralSym s →
      isMagic (choices.foldl applyChoice s)
        ∧ centralSym (choices.foldl applyChoice s)
        ∧ (choices.foldl applyChoice s).n = s.n := by
  induction choices with
  | nil =>
      intro s _ hm hs
      exact ⟨hm, hs, rfl⟩
  | cons c cs ih =>
      intro s hv hm hs
      have h1 := applyChoice_preserves s c (hv c (List.mem_cons_self c cs)) hm hs
      have hn := applyChoice_n s c
      have hv' : ∀ d ∈ cs, validChoice (applyChoice s c).n d = true := by
        intro d hd
        rw [hn]
        exact hv d (List.mem_cons_of_mem c hd)
      obtain ⟨h2, h3, h4⟩ := ih (applyChoice s c) hv' h1.1 h1.2
      refine ⟨h2, h3, ?_⟩
      rw [List.foldl_cons, h4, hn]

/-- C2 (amended): for every square passing `check_square_magic` that is in
    addition centrally symmetric, and every sequence of reachable random
    draws, `transform_magic_square` returns a square that again passes
    `check_square_magic` (and is again centrally symmetric).  Without the
    symmetry assumption the claim is false (`C2_cex`). -/
theorem C2_transform_magic (s : Sq) (choices : List TChoice)
    (hm : check_square_magic s = true) (hsym : centralSym s)
    (hv : ∀ c ∈ choices, validChoice s.n c = true) :
    check_square_magic (transform_magic_square s choices) = true
      ∧ centralSym (transform_magic_square s choices) := by
  unfold transform_magic_square
  rw [if_pos hm]
  obtain ⟨h1, h2, -⟩ :=
    foldl_preserves choices s hv ((check_square_magic_iff s).mp hm) hsym
  exact ⟨(check_square_magic_iff _).mpr h1, h2⟩

/-- C2 witness: the generated 3×3 square through one draw of each reachable
    operation kind. -/
theorem C2_transform_magic_witness :
    check_square_magic
        (transform_magic_square (create_square 3) [.rotCCW, .symSwap 0, .rotCW]) = true
      ∧ centralSym
        (transform_magic_square (create_square 3) [.rotCCW, .symSwap 0, .rotCW]) :=
  C2_transform_magic (create_square 3) [.rotCCW, .symSwap 0, .rotCW]
    (by decide) (by decide) (by decide)

/-! ### C10: size of the ciphertext. -/

theorem foldl_applyChoice_n (choices : List TChoice) :
    ∀ s : Sq, (choices.foldl applyChoice s).n = s.n := by
  induction choices with
  | nil => intro s; rfl
  | cons c cs ih =>
      intro s
      rw [List.foldl_cons, ih, applyChoice_n]

theorem transform_n (s : Sq) (choices : List TChoice) :
    (transform_magic_square s choices).n = s.n := by
  unfold transform_magic_square
  split
  · exact foldl_applyChoice_n choices s
  · rfl

theorem oddifyF_succ (fuel size : ℕ) :
    oddifyF (fuel + 1) size
      = if size ≤ 2 ∨ size % 2 = 0 then oddifyF fuel (size + 1) else size := rfl

theorem doublifyF_succ (fuel size : ℕ) :
    doublifyF (fuel + 1) size
      = if size % 4 = 0 then size else doublifyF fuel (size + 1) := rfl

theorem create_squareF_succ (fuel size : ℕ) :
    create_squareF (fuel + 1) size
      = if size < 3 then create_squareF fuel (size + 1)
        else if size % 2 ≠ 0 then create_odd_square size
        else if size % 4 = 0 then create_double_even_square size
        else create_squareF fuel (size + 1) := rfl

theorem create_odd_square_n (size : ℕ) (h1 : size % 2 = 1) (h2 : 3 ≤ size) :
    (create_odd_square size).n = size := by
  show oddifyF 4 size = size
  have e : oddifyF 4 size = oddifyF (3 + 1) size := rfl
  rw [e, oddifyF_succ, if_neg (by omega)]

theorem create_double_even_square_n (size : ℕ) (h : size % 4 = 0) :
    (create_double_even_square size).n = size := by
  show doublifyF 4 size = size
  have e : doublifyF 4 size = doublifyF (3 + 1) size := rfl
  rw [e, doublifyF_succ, if_pos h]

/-- The order actually used by `create_square`: the least order that is at
    least 3, at least the request, and odd or a multiple of 4. -/
theorem create_square_n_spec (size : ℕ) :
    3 ≤ (create_square size).n ∧ size ≤ (create_square size).n
      ∧ ((create_square size).n % 2 = 1 ∨ (create_square size).n % 4 = 0)
      ∧ ∀ k, 3 ≤ k → size ≤ k → (k % 2 = 1 ∨ k % 4 = 0) → (create_square size).n ≤ k := by
  by_cases h3 : size < 3
  · have hn : (create_square size).n = 3 := by
      interval_cases size <;> decide
    rw [hn]
    exact ⟨le_refl 3, by omega, Or.inl (by decide), fun k hk _ _ => hk⟩
  · push_neg at h3
    rcases Nat.mod_two_eq_zero_or_one size with he | ho
    · by_cases h4 : size % 4 = 0
      · have hn : (create_square size).n = size := by
          show (create_squareF 4 size).n = size
          have e : create_squareF 4 size = create_squareF (3 + 1) size := rfl
          rw [e, create_squareF_succ, if_neg (by omega), if_neg (by omega), if_pos h4]
          exact create_double_even_square_n size h4
        rw [hn]
        exact ⟨h3, le_refl _, Or.inr h4, fun k _ hk _ => hk⟩
      · have hn : (create_square size).n = size + 1 := by
          show (create_squareF 4 size).n = size + 1
          have e : create_squareF 4 size = create_squareF (3 + 1) size := rfl
          rw [e, create_squareF_succ, if_neg (by omega), if_neg (by omega), if_neg h4]
          have e2 : create_squareF 3 (size + 1) = create_squareF (2 + 1) (size + 1) := rfl
          rw [e2, create_squareF_succ, if_neg (by omega), if_pos (by omega)]
          exact create_odd_square_n (size + 1) (by omega) (by omega)
        rw [hn]
        refine ⟨by omega, by omega, Or.inl (by omega), ?_⟩
        intro k hk1 hk2 hk3
        rcases hk3 with h | h <;> omega
    · have hn : (create_square size).n = size := by
        show (create_squareF 4 size).n = size
        have e : create_squareF 4 size = create_squareF (3 + 1) size := rfl
        rw [e, create_squareF_succ, if_neg (by omega), if_pos (by omega)]
        exact create_odd_square_n size ho h3
      rw [hn]
      exact ⟨h3, le_refl _, Or.inl ho, fun k _ hk _ => hk⟩

theorem ceilSqrtF_spec (fuel : ℕ) :
    ∀ x m, x ≤ (m + fuel) * (m + fuel) →
      x ≤ ceilSqrtF fuel x m * ceilSqrtF fuel x m
        ∧ m ≤ ceilSqrtF fuel x m
        ∧ ∀ k, m ≤ k → x ≤ k * k → ceilSqrtF fuel x m ≤ k := by
  induction fuel with
  | zero =>
      intro x m h
      simp only [ceilSqrtF]
      exact ⟨by simpa using h, le_refl m, fun k hk _ => hk⟩
  | succ f ih =>
      intro x m h
      by_cases hm : x ≤ m * m
      · simp only [ceilSqrtF, if_pos hm]
        exact ⟨hm, le_refl m, fun k hk _ => hk⟩
      · simp only [ceilSqrtF, if_neg hm]
        have h' : x ≤ (m + 1 + f) * (m + 1 + f) := by
          have e : m + 1 + f = m + (f + 1) := by omega
          rw [e]
          exact h
        obtain ⟨h1, h2, h3⟩ := ih x (m + 1) h'
        refine ⟨h1, by omega, ?_⟩
        intro k hk hxk
        have hkm : k ≠ m := fun e => hm (e ▸ hxk)
        exact h3 k (by omega) hxk

/-- `ceilSqrt x` is exactly the ceiling of the square root: the least `m`
    with `x ≤ m²`. -/
theorem ceilSqrt_spec (x : ℕ) :
    x ≤ ceilSqrt x * ceilSqrt x ∧ ∀ k, x ≤ k * k → ceilSqrt x ≤ k := by
  have hpre : x ≤ (0 + (x + 1)) * (0 + (x + 1)) := by
    have h1 : (x + 1) * 1 ≤ (x + 1) * (x + 1) := Nat.mul_le_mul_left (x + 1) (by omega)
    simp only [Nat.zero_add]
    omega
  obtain ⟨h1, _, h3⟩ := ceilSqrtF_spec (x + 1) x 0 hpre
  exact ⟨h1, fun k hk => h3 k (Nat.zero_le k) hk⟩

theorem le_ceilSqrt_sq (x : ℕ) : x ≤ ceilSqrt x ^ 2 := by
  rw [pow_two]
  exact (ceilSqrt_spec x).1

theorem encrypt_ct_length (text : List ℕ) (choices : List TChoice) (e d : ℕ) :
    (encrypt text choices e d).2.length
      = (create_square (ceilSqrt text.length)).n ^ 2 := by
  show ((List.range
      (transform_magic_square (create_square (ceilSqrt text.length)) choices).flatten.length).map _).length = _
  rw [List.length_map, List.length_range]
  show ((List.range _).map _).length = _
  rw [List.length_map, List.length_range, transform_n, pow_two]

/-- C10: the ciphertext produced by `encrypt` has length m², where m is the
    least integer that is at least `max 3 ceil(sqrt(len(text)))` and odd or a
    multiple of 4; in particular the ciphertext is never shorter than the
    plaintext, and a 36-character text yields order 7, i.e. a 49-character
    ciphertext. -/
theorem C10_ciphertext_length (text : List ℕ) (choices : List TChoice) (e d : ℕ) :
    ((encrypt text choices e d).2.length = (create_square (ceilSqrt text.length)).n ^ 2
      ∧ 3 ≤ (create_square (ceilSqrt text.length)).n
      ∧ ceilSqrt text.length ≤ (create_square (ceilSqrt text.length)).n
      ∧ ((create_square (ceilSqrt text.length)).n % 2 = 1
          ∨ (create_square (ceilSqrt text.length)).n % 4 = 0)
      ∧ (∀ k, 3 ≤ k → ceilSqrt text.length ≤ k → (k % 2 = 1 ∨ k % 4 = 0)
          → (create_square (ceilSqrt text.length)).n ≤ k)
      ∧ text.length ≤ (encrypt text choices e d).2.length)
    ∧ (create_square (ceilSqrt 36)).n = 7 := by
  have hspec := create_square_n_spec (ceilSqrt text.length)
  have hlen := encrypt_ct_length text choices e d
  refine ⟨⟨hlen, hspec.1, hspec.2.1, hspec.2.2.1, hspec.2.2.2, ?_⟩, by decide⟩
  rw [hlen]
  calc text.length ≤ ceilSqrt text.length ^ 2 := le_ceilSqrt_sq _
    _ ≤ (create_square (ceilSqrt text.length)).n ^ 2 :=
        Nat.pow_le_pow_left hspec.2.1 2

/-- C10 witness: a 36-character text yields a 49-character ciphertext. -/
theorem C10_ciphertext_length_witness :
    (encrypt (List.replicate 36 65) [] 95 39).2.length = 49 := by
  have h := ((C10_ciphertext_length (List.replicate 36 65) [] 95 39).1).1
  rw [h]
  simp only [List.length_replicate]
  decide

/-! ### Key codec: the bit-packed key built by encrypt parses back to the
    same layout. -/

theorem natToBinAux_digits :
    ∀ fuel v c, c ∈ natToBinAux fuel v → c = 48 ∨ c = 49 := by
  intro fuel
  induction fuel with
  | zero =>
      intro v c hc
      simp [natToBinAux] at hc
  | succ f ih =>
      intro v c hc
      by_cases hv : v = 0
      · simp [natToBinAux, hv] at hc
      · simp only [natToBinAux, if_neg hv, List.mem_append, List.mem_singleton] at hc
        rcases hc with h | h
        · exact ih _ _ h
        · have := Nat.mod_two_eq_zero_or_one v
          omega

theorem natToBin_digits (v c : ℕ) (hc : c ∈ natToBin v) : c = 48 ∨ c = 49 := by
  unfold natToBin at hc
  split_ifs at hc with h
  · simp at hc
    omega
  · exact natToBinAux_digits v v c hc

theorem natToBinAux_length :
    ∀ fuel v k, v < 2 ^ k → (natToBinAux fuel v).length ≤ k := by
  intro fuel
  induction fuel with
  | zero =>
      intro v k _
      simp [natToBinAux]
  | succ f ih =>
      intro v k hv
      by_cases h0 : v = 0
      · simp [natToBinAux, h0]
      · have hk : 1 ≤ k := by
          by_contra hk0
          have : k = 0 := by omega
          rw [this] at hv
          simp at hv
          omega
        have h2 : 2 ^ k = 2 * 2 ^ (k - 1) := by
          have e : k = (k - 1) + 1 := by omega
          conv_lhs => rw [e]
          rw [pow_succ]
          ring
        have hhalf : v / 2 < 2 ^ (k - 1) := by omega
        have := ih (v / 2) (k - 1) hhalf
        simp only [natToBinAux, if_neg h0, List.length_append, List.length_singleton]
        omega

theorem binToNatAux_cons_digit (acc c d : ℕ) (cs : List ℕ) (h : binDigit c = some d) :
    binToNatAux acc (c :: cs) = binToNatAux (acc * 2 + d) cs := by
  show (match binDigit c with
    | none => none
    | some d => binToNatAux (acc * 2 + d) cs) = _
  rw [h]

theorem binToNatAux_natToBinAux :
    ∀ fuel v acc rest, v < 2 ^ fuel →
      binToNatAux acc (natToBinAux fuel v ++ rest)
        = binToNatAux (acc * 2 ^ (natToBinAux fuel v).length + v) rest := by
  intro fuel
  induction fuel with
  | zero =>
      intro v acc rest hv
      have h0 : v = 0 := by simpa using hv
      simp [natToBinAux, h0]
  | succ f ih =>
      intro v acc rest hv
      by_cases h0 : v = 0
      · simp [natToBinAux, h0]
      · have hhalf : v / 2 < 2 ^ f := by
          have h2 : 2 ^ (f + 1) = 2 * 2 ^ f := by
            rw [pow_succ]
            ring
          omega
        have hd : binDigit (48 + v % 2) = some (v % 2) := by
          unfold binDigit
          rcases Nat.mod_two_eq_zero_or_one v with h | h <;> simp [h]
        simp only [natToBinAux, if_neg h0, List.append_assoc, List.singleton_append]
        rw [ih (v / 2) acc ((48 + v % 2) :: rest) hhalf]
        rw [binToNatAux_cons_digit _ _ _ _ hd]
        simp only [List.length_append, List.length_singleton]
        congr 1
        have e : acc * 2 ^ ((natToBinAux f (v / 2)).length + 1)
            = acc * 2 ^ (natToBinAux f (v / 2)).length * 2 := by
          rw [pow_succ]
          ring
        have hrw : (acc * 2 ^ (natToBinAux f (v / 2)).length + v / 2) * 2 + v % 2
            = acc * 2 ^ (natToBinAux f (v / 2)).length * 2 + (v / 2 * 2 + v % 2) := by
          ring
        rw [hrw, e]
        have hv2 : v / 2 * 2 + v % 2 = v := by omega
        rw [hv2]

theorem binToNat_natToBin (v : ℕ) : binToNat (natToBin v) = some v := by
  unfold natToBin
  split_ifs with h0
  · subst h0
    rfl
  · have hne : natToBinAux v v ≠ [] := by
      intro he
      have : (natToBinAux v v).length ≤ 0 := by rw [he]; simp
      cases v with
      | zero => exact h0 rfl
      | succ w =>
          have h1 : w + 1 < 2 ^ (w + 1) := Nat.lt_two_pow (w + 1)
          have h2 : ¬ (w + 1 < 2 ^ 0) := by simp
          cases hv : natToBinAux (w + 1) (w + 1) with
          | nil =>
              simp only [natToBinAux] at hv
              rw [if_neg (by omega)] at hv
              simp at hv
          | cons a l => rw [hv] at he; simp at he
    unfold binToNat
    rw [if_neg hne]
    have h1 : v < 2 ^ v := Nat.lt_two_pow v
    have h2 := binToNatAux_natToBinAux v v 0 [] h1
    rw [List.append_nil] at h2
    rw [h2]
    simp [binToNatAux]

theorem binToNatAux_zeros :
    ∀ k rest, binToNatAux 0 (List.replicate k 48 ++ rest) = binToNatAux 0 rest := by
  intro k
  induction k with
  | zero =>
      intro rest
      rfl
  | succ m ih =>
      intro rest
      simp only [List.replicate_succ, List.cons_append]
      show binToNatAux (0 * 2 + 0) _ = _
      exact ih rest

theorem padBin_length (bits v : ℕ) (hb : 1 ≤ bits) (hv : v < 2 ^ bits) :
    (padBin bits v).length = bits := by
  unfold padBin
  rw [List.length_append, List.length_replicate]
  have hle : (natToBin v).length ≤ bits := by
    unfold natToBin
    split_ifs with h0
    · simpa using hb
    · exact natToBinAux_length v v bits hv
  omega

theorem padBin_digits (bits v c : ℕ) (hc : c ∈ padBin bits v) : c = 48 ∨ c = 49 := by
  unfold padBin at hc
  rw [List.mem_append] at hc
  rcases hc with h | h
  · left
    exact (List.eq_of_mem_replicate h)
  · exact natToBin_digits v c h

theorem natToBin_ne_nil (v : ℕ) : natToBin v ≠ [] := by
  unfold natToBin
  split_ifs with h0
  · simp
  · cases v with
    | zero => exact absurd rfl h0
    | succ w =>
        show natToBinAux (w + 1) (w + 1) ≠ []
        simp only [natToBinAux, if_neg (Nat.succ_ne_zero w)]
        simp

theorem binToNat_padBin (bits v : ℕ) (hb : 1 ≤ bits) (hv : v < 2 ^ bits) :
    binToNat (padBin bits v) = some v := by
  have hN := natToBin_ne_nil v
  have hne : padBin bits v ≠ [] := by
    unfold padBin
    simp [hN]
  unfold binToNat
  rw [if_neg hne]
  unfold padBin
  rw [binToNatAux_zeros]
  have h2 := binToNat_natToBin v
  unfold binToNat at h2
  rw [if_neg hN] at h2
  exact h2

theorem splitOnChar_ne_nil (d : ℕ) : ∀ s : List ℕ, splitOnChar d s ≠ [] := by
  intro s
  induction s with
  | nil => simp [splitOnChar]
  | cons c cs ih =>
      unfold splitOnChar
      cases h : splitOnChar d cs with
      | nil => simp
      | cons r rs =>
          split_ifs <;> simp

theorem splitOnChar_no_delim :
    ∀ (s : List ℕ) (d : ℕ), d ∉ s → splitOnChar d s = [s] := by
  intro s
  induction s with
  | nil =>
      intro d _
      rfl
  | cons c cs ih =>
      intro d hd
      have hc : c ≠ d := fun h => hd (by simp [h])
      have hcs : d ∉ cs := fun h => hd (by simp [h])
      unfold splitOnChar
      rw [ih d hcs]
      simp [hc]

theorem splitOnChar_cons (d c : ℕ) (cs : List ℕ) :
    splitOnChar d (c :: cs)
      = match splitOnChar d cs with
        | [] => [[]]
        | r :: rs => if c = d then [] :: r :: rs else (c :: r) :: rs := rfl

theorem splitOnChar_append :
    ∀ (xs : List ℕ) (d : ℕ) (ys : List ℕ), d ∉ xs →
      splitOnChar d (xs ++ d :: ys) = xs :: splitOnChar d ys := by
  intro xs
  induction xs with
  | nil =>
      intro d ys _
      show splitOnChar d (d :: ys) = [] :: splitOnChar d ys
      rw [splitOnChar_cons]
      cases h : splitOnChar d ys with
      | nil => exact absurd h (splitOnChar_ne_nil d ys)
      | cons r rs => simp
  | cons x xs ih =>
      intro d ys hd
      have hx : x ≠ d := fun h => hd (by simp [h])
      have hxs : d ∉ xs := fun h => hd (by simp [h])
      show splitOnChar d (x :: (xs ++ d :: ys)) = (x :: xs) :: splitOnChar d ys
      rw [splitOnChar_cons, ih d ys hxs]
      simp [hx]

theorem splitOnChar_two (d : ℕ) (xs ys : List ℕ) (h1 : d ∉ xs) (h2 : d ∉ ys) :
    splitOnChar d (xs ++ d :: ys) = [xs, ys] := by
  rw [splitOnChar_append xs d ys h1, splitOnChar_no_delim ys d h2]

theorem splitOnChar_three (d : ℕ) (xs ys zs : List ℕ)
    (h1 : d ∉ xs) (h2 : d ∉ ys) (h3 : d ∉ zs) :
    splitOnChar d (xs ++ d :: (ys ++ d :: zs)) = [xs, ys, zs] := by
  rw [splitOnChar_append xs d _ h1, splitOnChar_append ys d zs h2,
    splitOnChar_no_delim zs d h3]

theorem growBitsF_ge : ∀ (fuel maxVal bits : ℕ), bits ≤ growBitsF fuel maxVal bits := by
  intro fuel
  induction fuel with
  | zero =>
      intro maxVal bits
      exact le_refl bits
  | succ f ih =>
      intro maxVal bits
      unfold growBitsF
      split_ifs with h
      · calc bits ≤ bits * 2 := by omega
          _ ≤ growBitsF f maxVal (bits * 2) := ih maxVal (bits * 2)
      · exact le_refl bits

theorem growBitsF_bound :
    ∀ (fuel maxVal bits : ℕ), 1 ≤ bits → maxVal + 1 ≤ 2 ^ bits + fuel →
      maxVal < 2 ^ growBitsF fuel maxVal bits := by
  intro fuel
  induction fuel with
  | zero =>
      intro maxVal bits _ hf
      unfold growBitsF
      omega
  | succ f ih =>
      intro maxVal bits hb hf
      unfold growBitsF
      split_ifs with h
      · have h2 : 2 ^ (bits * 2) = 2 ^ bits * 2 ^ bits := by
          rw [show bits * 2 = bits + bits from by ring, pow_add]
        have h3 : 2 ≤ 2 ^ bits := by
          calc 2 = 2 ^ 1 := by norm_num
            _ ≤ 2 ^ bits := Nat.pow_le_pow_right (by norm_num) hb
        have h4 : 2 * 2 ^ bits ≤ 2 ^ bits * 2 ^ bits :=
          Nat.mul_le_mul_right (2 ^ bits) h3
        exact ih maxVal (bits * 2) (by omega) (by omega)
      · omega

theorem growBits_spec (maxVal : ℕ) :
    4 ≤ growBits maxVal 4 ∧ maxVal < 2 ^ growBits maxVal 4 := by
  unfold growBits
  refine ⟨growBitsF_ge _ _ 4, growBitsF_bound (maxVal + 1) maxVal 4 (by omega) ?_⟩
  have : (16 : ℕ) = 2 ^ 4 := by norm_num
  omega

theorem le_foldl_max :
    ∀ (l : List ℕ) (a : ℕ), (∀ v ∈ l, v ≤ l.foldl max a) ∧ a ≤ l.foldl max a := by
  intro l
  induction l with
  | nil =>
      intro a
      exact ⟨by simp, le_refl a⟩
  | cons x xs ih =>
      intro a
      obtain ⟨h1, h2⟩ := ih (max a x)
      have hstep : (x :: xs).foldl max a = xs.foldl max (max a x) := rfl
      refine ⟨?_, ?_⟩
      · intro v hv
        rw [hstep]
        rcases List.mem_cons.mp hv with h | h
        · rw [h]
          exact le_trans (le_max_right a x) h2
        · exact h1 v h
      · rw [hstep]
        exact le_trans (le_max_left a x) h2

theorem flatMap_padBin_length (bits : ℕ) (hb : 1 ≤ bits) :
    ∀ L : List ℕ, (∀ v ∈ L, v < 2 ^ bits) →
      (L.flatMap (padBin bits)).length = L.length * bits := by
  intro L
  induction L with
  | nil =>
      intro _
      simp
  | cons v L ih =>
      intro hv
      rw [List.flatMap_cons, List.length_append,
        padBin_length bits v hb (hv v (by simp)),
        ih (fun w hw => hv w (by simp [hw]))]
      simp only [List.length_cons]
      ring

theorem parseChunksGo_flatMap (bits : ℕ) (hb : 1 ≤ bits) :
    ∀ (L : List ℕ) (fuel : ℕ), (∀ v ∈ L, v < 2 ^ bits) → L.length * bits < fuel →
      parseChunksGo bits fuel (L.flatMap (padBin bits)) = some L := by
  intro L
  induction L with
  | nil =>
      intro fuel _ hf
      cases fuel with
      | zero => omega
      | succ f =>
          simp [parseChunksGo]
  | cons v L ih =>
      intro fuel hv hf
      have hvb : v < 2 ^ bits := hv v (by simp)
      have hpl : (padBin bits v).length = bits := padBin_length bits v hb hvb
      have hne : padBin bits v ≠ [] := by
        intro he
        rw [he] at hpl
        simp at hpl
        omega
      have hflen : ((v :: L).length * bits) = L.length * bits + bits := by
        simp [List.length_cons]
        ring
      cases fuel with
      | zero => omega
      | succ f =>
          have hcons : (v :: L).flatMap (padBin bits) = padBin bits v ++ L.flatMap (padBin bits) :=
            List.flatMap_cons v L (padBin bits)
          unfold parseChunksGo
          rw [hcons]
          rw [if_neg (by simp [hne])]
          rw [List.take_left' hpl, List.drop_left' hpl]
          rw [binToNat_padBin bits v hb hvb]
          rw [ih f (fun w hw => hv w (by simp [hw])) (by omega)]

theorem parseChunks_flatMap (bits : ℕ) (hb : 1 ≤ bits) (L : List ℕ)
    (hv : ∀ v ∈ L, v < 2 ^ bits) :
    parseChunks bits (L.flatMap (padBin bits)) = some L := by
  unfold parseChunks
  rw [if_neg (by omega)]
  exact parseChunksGo_flatMap bits hb L _ hv
    (by rw [flatMap_padBin_length bits hb L hv]; omega)

theorem delim_not_mem_natToBin (v : ℕ) : (39 : ℕ) ∉ natToBin v := by
  intro h
  rcases natToBin_digits v 39 h with h1 | h1 <;> omega

theorem delim_not_mem_blob (bits : ℕ) (L : List ℕ) :
    (39 : ℕ) ∉ L.flatMap (padBin bits) := by
  intro h
  obtain ⟨v, -, hm⟩ := List.mem_flatMap.mp h
  rcases padBin_digits bits v 39 hm with h1 | h1 <;> omega

/-- The key built by `encrypt` parses back to its layout. -/
theorem parse_key_encrypt (L : List ℕ) :
    parse_key 39
        (natToBin (growBits (L.foldl max 0) 4) ++ 39
          :: L.flatMap (padBin (growBits (L.foldl max 0) 4)))
      = some L := by
  set bits := growBits (L.foldl max 0) 4 with hbits
  obtain ⟨hb4, hmax⟩ := growBits_spec (L.foldl max 0)
  have hvlt : ∀ v ∈ L, v < 2 ^ bits := by
    intro v hv
    exact lt_of_le_of_lt ((le_foldl_max L 0).1 v hv) hmax
  unfold parse_key
  rw [splitOnChar_two 39 _ _ (delim_not_mem_natToBin bits) (delim_not_mem_blob bits L)]
  show (match binToNat (natToBin bits) with
    | some b => parseChunks b (L.flatMap (padBin bits))
    | none => none) = some L
  rw [binToNat_natToBin bits]
  show parseChunks bits (L.flatMap (padBin bits)) = some L
  exact parseChunks_flatMap bits (by omega) L hvlt

/-- The enhanced key built by `encrypt_enhanced` parses back to its offset
    and layout. -/
theorem parse_key_enhanced_encrypt (L : List ℕ) (off : ℕ) :
    parse_key_enhanced 39
        (natToBin (growBits (L.foldl max 0) 4) ++ 39
          :: (natToBin off ++ 39
            :: L.flatMap (padBin (growBits (L.foldl max 0) 4))))
      = some (off, L) := by
  set bits := growBits (L.foldl max 0) 4 with hbits
  obtain ⟨hb4, hmax⟩ := growBits_spec (L.foldl max 0)
  have hvlt : ∀ v ∈ L, v < 2 ^ bits := by
    intro v hv
    exact lt_of_le_of_lt ((le_foldl_max L 0).1 v hv) hmax
  unfold parse_key_enhanced
  rw [splitOnChar_three 39 _ _ _ (delim_not_mem_natToBin bits)
    (delim_not_mem_natToBin off) (delim_not_mem_blob bits L)]
  show (match binToNat (natToBin bits), binToNat (natToBin off) with
    | some b, some o =>
      match parseChunks b (L.flatMap (padBin bits)) with
      | some layout => some (o, layout)
      | none => none
    | _, _ => none) = some (off, L)
  rw [binToNat_natToBin bits, binToNat_natToBin off]
  show (match parseChunks bits (L.flatMap (padBin bits)) with
    | some layout => some (off, layout)
    | none => none) = some (off, L)
  rw [parseChunks_flatMap bits (by omega) L hvlt]

/-! ### The decryption write loop: distinct in-range writes land exactly
    where the layout says. -/

theorem npSet_pos (size : ℕ) (cells : ℕ → List ℕ) (v : ℕ) (cnt : List ℕ)
    (h1 : 1 ≤ v) (h2 : v ≤ size) :
    npSet size cells v cnt = .ok fun j => if j = v - 1 then cnt else cells j := by
  unfold npSet
  rw [if_neg (by omega), if_pos (by omega)]

theorem npSet_zero (size : ℕ) (cells : ℕ → List ℕ) (cnt : List ℕ) (h : 0 < size) :
    npSet size cells 0 cnt = .ok fun j => if j = size - 1 then cnt else cells j := by
  unfold npSet
  rw [if_pos rfl, if_neg (by omega)]

theorem writeCells_cons (size v : ℕ) (cnt : List ℕ) (ps : List (ℕ × List ℕ))
    (cells : ℕ → List ℕ) :
    writeCells size ((v, cnt) :: ps) cells
      = match npSet size cells v cnt with
        | .error e => .error e
        | .ok cells1 => writeCells size ps cells1 := rfl

theorem writeCells_spec (size : ℕ) :
    ∀ (ps : List (ℕ × List ℕ)) (cells : ℕ → List ℕ),
      (∀ p ∈ ps, 1 ≤ p.1 ∧ p.1 ≤ size) → (ps.map Prod.fst).Nodup →
      ∃ cellsF, writeCells size ps cells = .ok cellsF
        ∧ (∀ p ∈ ps, cellsF (p.1 - 1) = p.2)
        ∧ (∀ j, (j + 1) ∉ ps.map Prod.fst → cellsF j = cells j) := by
  intro ps
  induction ps with
  | nil =>
      intro cells _ _
      exact ⟨cells, rfl, by simp, fun j _ => rfl⟩
  | cons p ps ih =>
      intro cells hb hnd
      obtain ⟨v, cnt⟩ := p
      have hv := hb (v, cnt) (by simp)
      rw [List.map_cons, List.nodup_cons] at hnd
      obtain ⟨hvmem, hnd'⟩ := hnd
      obtain ⟨cellsF, hw, hA, hB⟩ :=
        ih (fun j => if j = v - 1 then cnt else cells j)
          (fun q hq => hb q (by simp [hq])) hnd'
      rw [writeCells_cons, npSet_pos size cells v cnt hv.1 hv.2]
      refine ⟨cellsF, hw, ?_, ?_⟩
      · intro q hq
        rcases List.mem_cons.mp hq with h | h
        · rw [h]
          have he : (v - 1) + 1 = v := by omega
          rw [hB (v - 1) (by rw [he]; exact hvmem)]
          simp
        · exact hA q h
      · intro j hj
        rw [List.map_cons, List.mem_cons] at hj
        push_neg at hj
        rw [hB j hj.2]
        have : j ≠ v - 1 := by omega
        simp [this]

theorem writeCells_ok (size : ℕ) :
    ∀ (ps : List (ℕ × List ℕ)) (cells : ℕ → List ℕ),
      (∀ p ∈ ps, p.1 ≤ size) → (ps = [] ∨ 0 < size) →
      ∃ cellsF, writeCells size ps cells = .ok cellsF := by
  intro ps
  induction ps with
  | nil =>
      intro cells _ _
      exact ⟨cells, rfl⟩
  | cons p ps ih =>
      intro cells hb hsz
      obtain ⟨v, cnt⟩ := p
      have hsz' : 0 < size := by
        rcases hsz with h | h
        · simp at h
        · exact h
      have hv := hb (v, cnt) (by simp)
      rcases Nat.eq_zero_or_pos v with h0 | h1
      · subst h0
        rw [writeCells_cons, npSet_zero size cells cnt hsz']
        exact ih _ (fun q hq => hb q (by simp [hq])) (Or.inr hsz')
      · rw [writeCells_cons, npSet_pos size cells v cnt h1 hv]
        exact ih _ (fun q hq => hb q (by simp [hq])) (Or.inr hsz')

theorem writeCellsEnh_cons (size off empty v t : ℕ) (ps : List (ℕ × ℕ))
    (cells : ℕ → List ℕ) :
    writeCellsEnh size off empty ((v, t) :: ps) cells
      = if t = empty then
          match npSet size cells v [] with
          | .error e => .error e
          | .ok cells1 => writeCellsEnh size off empty ps cells1
        else
          match pyChr (t ^^^ off) with
          | .error e => .error e
          | .ok ch =>
            match npSet size cells v [ch] with
            | .error e => .error e
            | .ok cells1 => writeCellsEnh size off empty ps cells1 := rfl

theorem pyChr_ok (x : ℕ) (h : x < 1114112) : pyChr x = .ok x := by
  unfold pyChr
  rw [if_pos h]

theorem writeCellsEnh_cons_empty (size off empty v t : ℕ) (ps : List (ℕ × ℕ))
    (cells : ℕ → List ℕ) (ht : t = empty) :
    writeCellsEnh size off empty ((v, t) :: ps) cells
      = match npSet size cells v [] with
        | .error e => .error e
        | .ok cells1 => writeCellsEnh size off empty ps cells1 := by
  rw [writeCellsEnh_cons, if_pos ht]

theorem writeCellsEnh_cons_chr (size off empty v t : ℕ) (ps : List (ℕ × ℕ))
    (cells : ℕ → List ℕ) (ht : t ≠ empty) (hb : t ^^^ off < 1114112) :
    writeCellsEnh size off empty ((v, t) :: ps) cells
      = match npSet size cells v [t ^^^ off] with
        | .error e => .error e
        | .ok cells1 => writeCellsEnh size off empty ps cells1 := by
  rw [writeCellsEnh_cons, if_neg ht, pyChr_ok _ hb]

theorem writeCellsEnh_spec (size off empty : ℕ) :
    ∀ (ps : List (ℕ × ℕ)) (cells : ℕ → List ℕ),
      (∀ p ∈ ps, 1 ≤ p.1 ∧ p.1 ≤ size ∧ (p.2 ≠ empty → p.2 ^^^ off < 1114112)) →
      (ps.map Prod.fst).Nodup →
      ∃ cellsF, writeCellsEnh size off empty ps cells = .ok cellsF
        ∧ (∀ p ∈ ps, cellsF (p.1 - 1) = if p.2 = empty then [] else [p.2 ^^^ off])
        ∧ (∀ j, (j + 1) ∉ ps.map Prod.fst → cellsF j = cells j) := by
  intro ps
  induction ps with
  | nil =>
      intro cells _ _
      exact ⟨cells, rfl, by simp, fun j _ => rfl⟩
  | cons p ps ih =>
      intro cells hb hnd
      obtain ⟨v, t⟩ := p
      have hv := hb (v, t) (by simp)
      rw [List.map_cons, List.nodup_cons] at hnd
      obtain ⟨hvmem, hnd'⟩ := hnd
      by_cases ht : t = empty
      · obtain ⟨cellsF, hw, hA, hB⟩ :=
          ih (fun j => if j = v - 1 then [] else cells j)
            (fun q hq => hb q (by simp [hq])) hnd'
        rw [writeCellsEnh_cons_empty size off empty v t ps cells ht,
          npSet_pos size cells v _ hv.1 hv.2.1]
        refine ⟨cellsF, hw, ?_, ?_⟩
        · intro q hq
          rcases List.mem_cons.mp hq with h | h
          · rw [h]
            have he : (v - 1) + 1 = v := by omega
            rw [hB (v - 1) (by rw [he]; exact hvmem)]
            simp [ht]
          · exact hA q h
        · intro j hj
          rw [List.map_cons, List.mem_cons] at hj
          push_neg at hj
          rw [hB j hj.2]
          have : j ≠ v - 1 := by omega
          simp [this]
      · obtain ⟨cellsF, hw, hA, hB⟩ :=
          ih (fun j => if j = v - 1 then [t ^^^ off] else cells j)
            (fun q hq => hb q (by simp [hq])) hnd'
        rw [writeCellsEnh_cons_chr size off empty v t ps cells ht (hv.2.2 ht),
          npSet_pos size cells v _ hv.1 hv.2.1]
        refine ⟨cellsF, hw, ?_, ?_⟩
        · intro q hq
          rcases List.mem_cons.mp hq with h | h
          · rw [h]
            have he : (v - 1) + 1 = v := by omega
            rw [hB (v - 1) (by rw [he]; exact hvmem)]
            simp [ht]
          · exact hA q h
        · intro j hj
          rw [List.map_cons, List.mem_cons] at hj
          push_neg at hj
          rw [hB j hj.2]
          have : j ≠ v - 1 := by omega
          simp [this]

theorem writeCellsEnh_ok (size off empty : ℕ) :
    ∀ (ps : List (ℕ × ℕ)) (cells : ℕ → List ℕ),
      (∀ p ∈ ps, p.1 ≤ size ∧ (p.2 ≠ empty → p.2 ^^^ off < 1114112)) →
      (ps = [] ∨ 0 < size) →
      ∃ cellsF, writeCellsEnh size off empty ps cells = .ok cellsF := by
  intro ps
  induction ps with
  | nil =>
      intro cells _ _
      exact ⟨cells, rfl⟩
  | cons p ps ih =>
      intro cells hb hsz
      obtain ⟨v, t⟩ := p
      have hsz' : 0 < size := by
        rcases hsz with h | h
        · simp at h
        · exact h
      have hv := hb (v, t) (by simp)
      by_cases ht : t = empty
      · rw [writeCellsEnh_cons_empty size off empty v t ps cells ht]
        rcases Nat.eq_zero_or_pos v with h0 | h1
        · subst h0
          rw [npSet_zero size cells _ hsz']
          exact ih _ (fun q hq => hb q (by simp [hq])) (Or.inr hsz')
        · rw [npSet_pos size cells v _ h1 hv.1]
          exact ih _ (fun q hq => hb q (by simp [hq])) (Or.inr hsz')
      · rw [writeCellsEnh_cons_chr size off empty v t ps cells ht (hv.2 ht)]
        rcases Nat.eq_zero_or_pos v with h0 | h1
        · subst h0
          rw [npSet_zero size cells _ hsz']
          exact ih _ (fun q hq => hb q (by simp [hq])) (Or.inr hsz')
        · rw [npSet_pos size cells v _ h1 hv.1]
          exact ih _ (fun q hq => hb q (by simp [hq])) (Or.inr hsz')

/-- A nodup layout of length N with values in 1..N hits every target. -/
theorem layout_surj (L : List ℕ) (hnd : L.Nodup)
    (hb : ∀ v ∈ L, 1 ≤ v ∧ v ≤ L.length) :
    ∀ j, j < L.length → (j + 1) ∈ L := by
  intro j hj
  have hsub : L.toFinset ⊆ Finset.Icc 1 L.length := by
    intro x hx
    rw [List.mem_toFinset] at hx
    exact Finset.mem_Icc.mpr ⟨(hb x hx).1, (hb x hx).2⟩
  have hcard : (Finset.Icc 1 L.length).card ≤ L.toFinset.card := by
    rw [List.toFinset_card_of_nodup hnd, Nat.card_Icc]
    omega
  have heq := Finset.eq_of_subset_of_card_le hsub hcard
  have hm : (j + 1) ∈ Finset.Icc 1 L.length := Finset.mem_Icc.mpr (by omega)
  rw [← heq, List.mem_toFinset] at hm
  exact hm

/-! ### Joining the plaintext cells back into a string. -/

theorem flatMap_congr_mem (l : List ℕ) (f g : ℕ → List ℕ)
    (h : ∀ x ∈ l, f x = g x) : l.flatMap f = l.flatMap g := by
  induction l with
  | nil => rfl
  | cons x xs ih =>
      rw [List.flatMap_cons, List.flatMap_cons, h x (by simp),
        ih fun y hy => h y (by simp [hy])]

theorem flatMap_eq_map (g : ℕ → ℕ) :
    ∀ l : List ℕ, (l.flatMap fun j => [g j]) = l.map g := by
  intro l
  induction l with
  | nil => rfl
  | cons x xs ih => rw [List.flatMap_cons, ih]; rfl

theorem flatMap_map_comp (l : List ℕ) (f : ℕ → ℕ) (g : ℕ → List ℕ) :
    (l.map f).flatMap g = l.flatMap fun x => g (f x) := by
  induction l with
  | nil => rfl
  | cons x xs ih =>
      rw [List.map_cons, List.flatMap_cons, List.flatMap_cons, ih]

theorem map_getD_range (l : List ℕ) :
    (List.range l.length).map (fun j => l.getD j 0) = l := by
  apply List.ext_getElem
  · simp
  · intro n h1 h2
    rw [List.getElem_map, List.getElem_range]
    exact List.getD_eq_getElem l 0 h2

theorem range_flatMap_split (N len : ℕ) (h : len ≤ N) (cells : ℕ → List ℕ) :
    (List.range N).flatMap cells
      = (List.range len).flatMap cells
        ++ ((List.range (N - len)).map (fun x => len + x)).flatMap cells := by
  conv_lhs => rw [show N = len + (N - len) from by omega, List.range_add]
  rw [List.flatMap_append]

theorem flatMap_nil_fun (l : List ℕ) : (l.flatMap fun _ => ([] : List ℕ)) = [] := by
  induction l with
  | nil => rfl
  | cons x xs ih => rw [List.flatMap_cons, ih]; rfl

theorem filter_replicate_95 (k : ℕ) :
    (List.replicate k (95 : ℕ)).filter (fun t => decide (t ≠ 95)) = [] := by
  induction k with
  | zero => rfl
  | succ m ih =>
      rw [List.replicate_succ, List.filter_cons]
      simp [ih]

theorem pyIndex_ge_one (l : List ℕ) (v : ℕ) (h1 : 1 ≤ v) (h2 : v ≤ l.length) :
    pyIndex l ((v : ℤ) - 1) = l.getD (v - 1) 0 := by
  have hin : ((v : ℤ) - 1 < 0) = False := eq_false (by omega)
  simp only [pyIndex, hin, if_false]
  rw [if_pos (by constructor <;> omega)]
  congr 1
  omega

/-! ### The round trip for an arbitrary permutation layout. -/

/-- `decrypt` recovers the plaintext from the positional ciphertext and the
    bit-packed key, for any layout that is a permutation of `1..len(layout)`,
    provided the plaintext does not contain the filler (which the final
    `replace` would strip). -/
theorem decrypt_generic (text L ct : List ℕ)
    (hb : ∀ v ∈ L, 1 ≤ v ∧ v ≤ L.length)
    (hnd : L.Nodup)
    (hlen : text.length ≤ L.length)
    (hctlen : ct.length = L.length)
    (hct : ∀ i, i < L.length →
      ct.getD i 0 = if L.getD i 0 ≤ text.length
        then text.getD (L.getD i 0 - 1) 0 else 95)
    (hemp : ∀ t ∈ text, t ≠ 95) :
    decrypt ct
        (natToBin (growBits (L.foldl max 0) 4) ++ 39
          :: L.flatMap (padBin (growBits (L.foldl max 0) 4))) 95 39
      = .ok (true, text) := by
  have hklen : (natToBin (growBits (L.foldl max 0) 4) ++ 39
      :: L.flatMap (padBin (growBits (L.foldl max 0) 4))).length ≠ 0 := by
    simp
  have hcheck : check_layout L ct = (true, str2cp "The key is right") := by
    unfold check_layout pyIsinstanceSqrtInt
    rw [if_neg (by simp), if_neg (by omega), if_neg (by rw [List.dedup_eq_self.mpr hnd]; omega)]
  have hps : ∀ p ∈ L.zip (ct.map fun t => [t]), 1 ≤ p.1 ∧ p.1 ≤ L.length := by
    intro p hp
    obtain ⟨a, b⟩ := p
    exact hb a (List.of_mem_zip hp).1
  have hndmap : ((L.zip (ct.map fun t => [t])).map Prod.fst).Nodup := by
    rw [List.map_fst_zip _ _ (by simp [hctlen])]
    exact hnd
  obtain ⟨cellsF, hw, hA, hB⟩ :=
    writeCells_spec L.length (L.zip (ct.map fun t => [t])) (fun _ => []) hps hndmap
  have hcells : ∀ j, j < L.length →
      cellsF j = if j + 1 ≤ text.length then [text.getD j 0] else [95] := by
    intro j hj
    obtain ⟨i, hi, hgi⟩ := List.mem_iff_getElem.mp (layout_surj L hnd hb j hj)
    have hilen : i < (L.zip (ct.map fun t => [t])).length := by
      rw [List.length_zip, List.length_map, hctlen]
      simp [hi]
    have hict : i < ct.length := by omega
    have himap : i < (ct.map fun t => [t]).length := by
      simp [hctlen, hi]
    have hmem := List.getElem_mem hilen
    rw [List.getElem_zip] at hmem
    have hmapi : (ct.map fun t => [t])[i] = [ct[i]] := by
      rw [List.getElem_map]
    rw [hmapi] at hmem
    have hcf := hA _ hmem
    simp only at hcf
    rw [hgi] at hcf
    have he : j + 1 - 1 = j := by omega
    rw [he] at hcf
    rw [hcf]
    have hcti : ct[i] = ct.getD i 0 :=
      (List.getD_eq_getElem ct 0 hict).symm
    have hLi : L.getD i 0 = j + 1 := by
      rw [List.getD_eq_getElem L 0 hi, hgi]
    rw [hcti, hct i hi, hLi]
    have he2 : j + 1 - 1 = j := by omega
    rw [he2]
    split_ifs <;> rfl
  have hjoin : (List.range L.length).flatMap cellsF
      = text ++ List.replicate (L.length - text.length) 95 := by
    rw [range_flatMap_split L.length text.length hlen cellsF]
    congr 1
    · rw [flatMap_congr_mem _ cellsF (fun j => [text.getD j 0]) ?_]
      · rw [flatMap_eq_map, map_getD_range]
      · intro x hx
        have hxl := List.mem_range.mp hx
        rw [hcells x (by omega), if_pos (by omega)]
    · rw [flatMap_map_comp,
        flatMap_congr_mem _ _ (fun _ => [95]) ?_, flatMap_eq_map]
      · apply List.eq_replicate_iff.mpr
        constructor
        · simp
        · intro b hbm
          obtain ⟨x, -, hx⟩ := List.mem_map.mp hbm
          omega
      · intro x hx
        have hxl := List.mem_range.mp hx
        rw [hcells (text.length + x) (by omega), if_neg (by omega)]
  have hfilter : ((List.range L.length).flatMap cellsF).filter
      (fun t => decide (t ≠ 95)) = text := by
    rw [hjoin, List.filter_append, filter_replicate_95, List.append_nil]
    apply List.filter_eq_self.mpr
    intro a ha
    simpa using hemp a ha
  unfold decrypt
  rw [if_neg hklen]
  simp only [parse_key_encrypt L, hcheck, hw, hfilter]

/-- The enhanced round trip for an arbitrary permutation layout, in the runs
    where the filler was not bumped and no XORed character collides with it. -/
theorem decrypt_enhanced_generic (text L ct : List ℕ) (off : ℕ)
    (hb : ∀ v ∈ L, 1 ≤ v ∧ v ≤ L.length)
    (hnd : L.Nodup)
    (hlen : text.length ≤ L.length)
    (hctlen : ct.length = L.length)
    (hct : ∀ i, i < L.length →
      ct.getD i 0 = if L.getD i 0 ≤ text.length
        then text.getD (L.getD i 0 - 1) 0 ^^^ off else 95)
    (hnocol : ∀ t ∈ text, t ^^^ off ≠ 95)
    (htval : ∀ t ∈ text, t < 1114112) :
    decrypt_enhanced ct
        (natToBin (growBits (L.foldl max 0) 4) ++ 39
          :: (natToBin off ++ 39
            :: L.flatMap (padBin (growBits (L.foldl max 0) 4)))) 95 39
      = .ok (true, text) := by
  have hklen : (natToBin (growBits (L.foldl max 0) 4) ++ 39
      :: (natToBin off ++ 39
        :: L.flatMap (padBin (growBits (L.foldl max 0) 4)))).length ≠ 0 := by
    simp
  have hcheck : check_layout L ct = (true, str2cp "The key is right") := by
    unfold check_layout pyIsinstanceSqrtInt
    rw [if_neg (by simp), if_neg (by omega), if_neg (by rw [List.dedup_eq_self.mpr hnd]; omega)]
  have hctmem : ∀ x ∈ ct, x = 95 ∨ ∃ t ∈ text, x = t ^^^ off := by
    intro x hx
    obtain ⟨i, hi, hgi⟩ := List.mem_iff_getElem.mp hx
    have hi' : i < L.length := by omega
    have hgd : ct.getD i 0 = x := by
      rw [List.getD_eq_getElem ct 0 hi, hgi]
    rw [hct i hi'] at hgd
    split_ifs at hgd with hmapped
    · right
      have hv := hb (L.getD i 0) (by
        have := List.getD_eq_getElem L 0 hi'
        rw [this]
        exact List.getElem_mem hi')
      refine ⟨text.getD (L.getD i 0 - 1) 0, ?_, hgd.symm⟩
      have hlt : L.getD i 0 - 1 < text.length := by omega
      rw [List.getD_eq_getElem text 0 hlt]
      exact List.getElem_mem hlt
    · omega
  have hps : ∀ p ∈ L.zip ct,
      1 ≤ p.1 ∧ p.1 ≤ L.length ∧ (p.2 ≠ 95 → p.2 ^^^ off < 1114112) := by
    intro p hp
    obtain ⟨a, b⟩ := p
    obtain ⟨ha, hbm⟩ := List.of_mem_zip hp
    refine ⟨(hb a ha).1, (hb a ha).2, ?_⟩
    intro hne
    rcases hctmem b hbm with h | ⟨t, ht, rfl⟩
    · exact absurd h hne
    · rw [Nat.xor_cancel_right]
      exact htval t ht
  have hndmap : ((L.zip ct).map Prod.fst).Nodup := by
    rw [List.map_fst_zip _ _ (by omega)]
    exact hnd
  obtain ⟨cellsF, hw, hA, hB⟩ :=
    writeCellsEnh_spec L.length off 95 (L.zip ct) (fun _ => []) hps hndmap
  have hcells : ∀ j, j < L.length →
      cellsF j = if j + 1 ≤ text.length then [text.getD j 0] else [] := by
    intro j hj
    obtain ⟨i, hi, hgi⟩ := List.mem_iff_getElem.mp (layout_surj L hnd hb j hj)
    have hilen : i < (L.zip ct).length := by
      rw [List.length_zip]
      omega
    have hict : i < ct.length := by omega
    have hmem := List.getElem_mem hilen
    rw [List.getElem_zip] at hmem
    have hcf := hA _ hmem
    simp only at hcf
    rw [hgi] at hcf
    have he : j + 1 - 1 = j := by omega
    rw [he] at hcf
    rw [hcf]
    have hcti : ct[i] = ct.getD i 0 :=
      (List.getD_eq_getElem ct 0 hict).symm
    have hLi : L.getD i 0 = j + 1 := by
      rw [List.getD_eq_getElem L 0 hi, hgi]
    rw [hcti, hct i hi, hLi]
    have he2 : j + 1 - 1 = j := by omega
    rw [he2]
    by_cases hmapped : j + 1 ≤ text.length
    · have htj : text.getD j 0 ∈ text := by
        have hlt : j < text.length := by omega
        rw [List.getD_eq_getElem text 0 hlt]
        exact List.getElem_mem hlt
      rw [if_pos hmapped, if_pos hmapped, if_neg (hnocol _ htj), Nat.xor_cancel_right]
    · rw [if_neg hmapped, if_neg hmapped, if_pos rfl]
  have hjoin : (List.range L.length).flatMap cellsF = text := by
    rw [range_flatMap_split L.length text.length hlen cellsF]
    have h1 : (List.range text.length).flatMap cellsF = text := by
      rw [flatMap_congr_mem _ cellsF (fun j => [text.getD j 0]) ?_]
      · rw [flatMap_eq_map, map_getD_range]
      · intro x hx
        have hxl := List.mem_range.mp hx
        rw [hcells x (by omega), if_pos (by omega)]
    have h2 : ((List.range (L.length - text.length)).map
        (fun x => text.length + x)).flatMap cellsF = [] := by
      rw [flatMap_map_comp, flatMap_congr_mem _ _ (fun _ => []) ?_, flatMap_nil_fun]
      intro x hx
      have hxl := List.mem_range.mp hx
      rw [hcells (text.length + x) (by omega), if_neg (by omega)]
    rw [h1, h2, List.append_nil]
  unfold decrypt_enhanced
  rw [if_neg hklen]
  simp only [parse_key_enhanced_encrypt L off, hcheck, hw, hjoin]

/-! ### C3: uncaught exceptions on the decrypt path. -/

/-- C3 counterexample: the claim says decrypt returns a status pair even when
    the parsed layout holds values outside `1..len(ciphertext)`.  In fact
    `check_layout` never inspects the value range, and the write
    `plaintext[layout[i] - 1] = text[i]` raises an uncaught IndexError as soon
    as a layout value exceeds the array size: the one-character ciphertext "A"
    with key "100" ++ delim ++ "1111" (layout `[15]`) aborts, while the value 0
    (key "100" ++ delim ++ "0000") slips through via negative indexing and even
    returns status true. -/
theorem C3_cex :
    decrypt [65] [49, 48, 48, 39, 49, 49, 49, 49] 95 39 = .error ()
      ∧ decrypt [65] [49, 48, 48, 39, 48, 48, 48, 48] 95 39 = .ok (true, [65]) :=
  ⟨rfl, rfl⟩

/-- C3 (amended): decrypt and decrypt_enhanced return a status pair and raise
    no uncaught exception PROVIDED every value of the parsed layout is at most
    the layout length (so every write lands in bounds, value 0 wrapping to the
    last cell), and, for the enhanced engine, every non-filler ciphertext
    character XORed with the parsed offset stays below 0x110000 (so `chr`
    does not raise ValueError).  Without the proviso the claim is false
    (see the counterexample). -/
theorem C3_no_uncaught (text key : List ℕ)
    (hbasic : ∀ L, parse_key 39 key = some L → ∀ v ∈ L, v ≤ L.length)
    (henh : ∀ off L, parse_key_enhanced 39 key = some (off, L) →
      (∀ v ∈ L, v ≤ L.length) ∧ ∀ t ∈ text, t ≠ 95 → t ^^^ off < 1114112) :
    decrypt text key 95 39 ≠ .error ()
      ∧ decrypt_enhanced text key 95 39 ≠ .error () := by
  constructor
  · by_cases hk : key.length = 0
    · unfold decrypt
      rw [if_pos hk]
      intro h
      exact Except.noConfusion h
    · unfold decrypt
      rw [if_neg hk]
      rcases hpe : parse_key 39 key with _ | L
      · intro h
        exact Except.noConfusion h
      · have hvb := hbasic L hpe
        by_cases hlen : text.length = L.length
        · by_cases hdup : L.dedup.length = L.length
          · have hcl : check_layout L text = (true, str2cp "The key is right") := by
              unfold check_layout pyIsinstanceSqrtInt
              rw [if_neg (by simp), if_neg (by omega), if_neg (by omega)]
            have hb' : ∀ p ∈ L.zip (text.map fun t => [t]), p.1 ≤ L.length := by
              intro p hpz
              exact hvb p.1 (List.of_mem_zip hpz).1
            have hor : (L.zip (text.map fun t => [t])) = [] ∨ 0 < L.length := by
              rcases L with _ | ⟨a, L1⟩
              · left
                rfl
              · right
                simp
            obtain ⟨cellsF, hw⟩ := writeCells_ok L.length _ (fun _ => []) hb' hor
            simp only [hcl, hw]
            intro h
            exact Except.noConfusion h
          · have hcl : check_layout L text = (false, str2cp "Wrong key contents") := by
              unfold check_layout pyIsinstanceSqrtInt
              rw [if_neg (by simp), if_neg (by omega), if_pos (by omega)]
            simp only [hcl]
            intro h
            exact Except.noConfusion h
        · have hcl : check_layout L text = (false, str2cp "Wrong key size") := by
            unfold check_layout pyIsinstanceSqrtInt
            rw [if_neg (by simp), if_pos (by omega)]
          simp only [hcl]
          intro h
          exact Except.noConfusion h
  · by_cases hk : key.length = 0
    · unfold decrypt_enhanced
      rw [if_pos hk]
      intro h
      exact Except.noConfusion h
    · unfold decrypt_enhanced
      rw [if_neg hk]
      rcases hpe : parse_key_enhanced 39 key with _ | ⟨off, L⟩
      · intro h
        exact Except.noConfusion h
      · obtain ⟨hvb, hxr⟩ := henh off L hpe
        by_cases hlen : text.length = L.length
        · by_cases hdup : L.dedup.length = L.length
          · have hcl : check_layout L text = (true, str2cp "The key is right") := by
              unfold check_layout pyIsinstanceSqrtInt
              rw [if_neg (by simp), if_neg (by omega), if_neg (by omega)]
            have hb' : ∀ p ∈ L.zip text,
                p.1 ≤ L.length ∧ (p.2 ≠ 95 → p.2 ^^^ off < 1114112) := by
              intro p hpz
              obtain ⟨h1, h2⟩ := List.of_mem_zip hpz
              exact ⟨hvb p.1 h1, hxr p.2 h2⟩
            have hor : (L.zip text) = [] ∨ 0 < L.length := by
              rcases L with _ | ⟨a, L1⟩
              · left
                rfl
              · right
                simp
            obtain ⟨cellsF, hw⟩ :=
              writeCellsEnh_ok L.length off 95 _ (fun _ => []) hb' hor
            simp only [hcl, hw]
            intro h
            exact Except.noConfusion h
          · have hcl : check_layout L text = (false, str2cp "Wrong key contents") := by
              unfold check_layout pyIsinstanceSqrtInt
              rw [if_neg (by simp), if_neg (by omega), if_pos (by omega)]
            simp only [hcl]
            intro h
            exact Except.noConfusion h
        · have hcl : check_layout L text = (false, str2cp "Wrong key size") := by
            unfold check_layout pyIsinstanceSqrtInt
            rw [if_neg (by simp), if_pos (by omega)]
          simp only [hcl]
          intro h
          exact Except.noConfusion h

/-- Witness for C3_no_uncaught at ciphertext "A" and key "100" ++ delim ++
    "0001": the basic parse yields layout `[1]` (in bounds), the enhanced
    parse fails (two fields, not three), and indeed neither engine aborts. -/
theorem C3_no_uncaught_witness :
    decrypt [65] [49, 48, 48, 39, 48, 48, 48, 49] 95 39 ≠ .error ()
      ∧ decrypt_enhanced [65] [49, 48, 48, 39, 48, 48, 48, 49] 95 39 ≠ .error () :=
  C3_no_uncaught [65] [49, 48, 48, 39, 48, 48, 48, 49]
    (fun L hL => by
      have h : parse_key 39 [49, 48, 48, 39, 48, 48, 48, 49] = some [1] := rfl
      rw [h] at hL
      obtain rfl : [1] = L := Option.some_inj.mp hL
      decide)
    (fun off L hOL => by
      have h : parse_key_enhanced 39 [49, 48, 48, 39, 48, 48, 48, 49] = none := rfl
      rw [h] at hOL
      exact Option.noConfusion hOL)

/-! ### C1: the full round trip. -/

/-- Pulling back the cells along any injective self-map of the index square
    preserves `cellPerm`. -/
theorem cellPerm_comp (s : Sq) (f : ℕ → ℕ → ℕ × ℕ)
    (hf : ∀ r < s.n, ∀ c < s.n, (f r c).1 < s.n ∧ (f r c).2 < s.n)
    (hfinj : ∀ r < s.n, ∀ c < s.n, ∀ r2 < s.n, ∀ c2 < s.n,
      f r c = f r2 c2 → r = r2 ∧ c = c2)
    (h : cellPerm s) :
    cellPerm ⟨s.n, fun r c => s.a (f r c).1 (f r c).2⟩ := by
  intro r hr c hc
  obtain ⟨hf1, hf2⟩ := hf r hr c hc
  refine ⟨(h _ hf1 _ hf2).1, ?_⟩
  intro r2 hr2 c2 hc2 heq
  obtain ⟨hg1, hg2⟩ := hf r2 hr2 c2 hc2
  have hpair : f r c = f r2 c2 :=
    Prod.ext_iff.mpr ((h _ hf1 _ hf2).2 _ hg1 _ hg2 heq)
  exact hfinj r hr c hc r2 hr2 c2 hc2 hpair

theorem cellPerm_rotCCW (s : Sq) (h : cellPerm s) : cellPerm (rot90ccw s) := by
  have hmain := cellPerm_comp s (fun r c => (c, s.n - 1 - r))
    (fun r hr c hc => ⟨hc, by show s.n - 1 - r < s.n; omega⟩)
    (fun r hr c hc r2 hr2 c2 hc2 heq => by
      simp only [Prod.mk.injEq] at heq
      omega)
    h
  exact hmain

theorem cellPerm_rotCW (s : Sq) (h : cellPerm s) : cellPerm (rot90cw s) := by
  have hmain := cellPerm_comp s (fun r c => (s.n - 1 - c, r))
    (fun r hr c hc => ⟨by show s.n - 1 - c < s.n; omega, hr⟩)
    (fun r hr c hc r2 hr2 c2 hc2 heq => by
      simp only [Prod.mk.injEq] at heq
      omega)
    h
  exact hmain

theorem cellPerm_symSwap (s : Sq) (i : ℕ) (hi : i ≤ s.n - 1) (h : cellPerm s) :
    cellPerm (applyChoice s (.symSwap i)) := by
  have hmain := cellPerm_comp s
    (fun r c => (swapIdx i (s.n - 1 - i) r, swapIdx i (s.n - 1 - i) c))
    (fun r hr c hc =>
      ⟨swapIdx_lt i (s.n - 1 - i) r (by omega) (by omega) hr,
        swapIdx_lt i (s.n - 1 - i) c (by omega) (by omega) hc⟩)
    (fun r hr c hc r2 hr2 c2 hc2 heq => by
      simp only [Prod.mk.injEq] at heq
      obtain ⟨h1, h2⟩ := heq
      have e1 := congrArg (swapIdx i (s.n - 1 - i)) h1
      have e2 := congrArg (swapIdx i (s.n - 1 - i)) h2
      rw [swapIdx_invol, swapIdx_invol] at e1 e2
      exact ⟨e1, e2⟩)
    h
  exact hmain

theorem cellPerm_pairRows (s : Sq) (i j : ℕ) (hij : i < j) (hjn : 2 * j + 2 ≤ s.n)
    (h : cellPerm s) : cellPerm (applyChoice s (.pairSwap false i j)) := by
  have hmain := cellPerm_comp s
    (fun r c => (swapIdx i j (swapIdx (s.n - 1 - i) (s.n - 1 - j) r), c))
    (fun r hr c hc =>
      ⟨swapIdx_lt i j _ (by omega) (by omega)
        (swapIdx_lt (s.n - 1 - i) (s.n - 1 - j) r (by omega) (by omega) hr), hc⟩)
    (fun r hr c hc r2 hr2 c2 hc2 heq => by
      simp only [Prod.mk.injEq] at heq
      obtain ⟨h1, h2⟩ := heq
      have e1 := congrArg (swapIdx i j) h1
      rw [swapIdx_invol, swapIdx_invol] at e1
      have e2 := congrArg (swapIdx (s.n - 1 - i) (s.n - 1 - j)) e1
      rw [swapIdx_invol, swapIdx_invol] at e2
      exact ⟨e2, h2⟩)
    h
  exact hmain

theorem cellPerm_pairCols (s : Sq) (i j : ℕ) (hij : i < j) (hjn : 2 * j + 2 ≤ s.n)
    (h : cellPerm s) : cellPerm (applyChoice s (.pairSwap true i j)) := by
  have hmain := cellPerm_comp s
    (fun r c => (r, swapIdx i j (swapIdx (s.n - 1 - i) (s.n - 1 - j) c)))
    (fun r hr c hc =>
      ⟨hr, swapIdx_lt i j _ (by omega) (by omega)
        (swapIdx_lt (s.n - 1 - i) (s.n - 1 - j) c (by omega) (by omega) hc)⟩)
    (fun r hr c hc r2 hr2 c2 hc2 heq => by
      simp only [Prod.mk.injEq] at heq
      obtain ⟨h1, h2⟩ := heq
      have e1 := congrArg (swapIdx i j) h2
      rw [swapIdx_invol, swapIdx_invol] at e1
      have e2 := congrArg (swapIdx (s.n - 1 - i) (s.n - 1 - j)) e1
      rw [swapIdx_invol, swapIdx_invol] at e2
      exact ⟨h1, e2⟩)
    h
  exact hmain

theorem cellPerm_applyChoice (s : Sq) (c : TChoice)
    (hv : validChoice s.n c = true) (h : cellPerm s) :
    cellPerm (applyChoice s c) := by
  cases c with
  | rotCCW => exact cellPerm_rotCCW s h
  | rotCW => exact cellPerm_rotCW s h
  | symSwap i =>
      have hi : i ≤ s.n - 1 := by
        simpa [validChoice] using hv
      exact cellPerm_symSwap s i hi h
  | pairSwap b i j =>
      simp only [validChoice, Bool.and_eq_true] at hv
      obtain ⟨-, h2⟩ := hv
      have hij : i < j ∧ 2 * j + 2 ≤ s.n := by
        by_cases h45 : s.n = 4 ∨ s.n = 5
        · rw [if_pos h45] at h2
          have := of_decide_eq_true h2
          omega
        · rw [if_neg h45] at h2
          have := of_decide_eq_true h2
          omega
      cases b with
      | false => exact cellPerm_pairRows s i j hij.1 hij.2 h
      | true => exact cellPerm_pairCols s i j hij.1 hij.2 h

theorem cellPerm_foldl (choices : List TChoice) :
    ∀ s : Sq, (∀ c ∈ choices, validChoice s.n c = true) → cellPerm s →
      cellPerm (choices.foldl applyChoice s) := by
  induction choices with
  | nil =>
      intro s _ h
      exact h
  | cons c cs ih =>
      intro s hv h
      rw [List.foldl_cons]
      apply ih
      · intro d hd
        rw [applyChoice_n]
        exact hv d (List.mem_cons.mpr (Or.inr hd))
      · exact cellPerm_applyChoice s c (hv c (List.mem_cons_self c cs)) h

theorem cellPerm_transform (s : Sq) (choices : List TChoice)
    (hv : ∀ c ∈ choices, validChoice s.n c = true) (h : cellPerm s) :
    cellPerm (transform_magic_square s choices) := by
  unfold transform_magic_square
  split
  · exact cellPerm_foldl choices s hv h
  · exact h

/-- A `cellPerm` square flattens to a duplicate-free list of `n²` values in
    `1..n²` — exactly the layout shape the decrypt path needs. -/
theorem flatten_props (s : Sq) (h : cellPerm s) :
    s.flatten.length = s.n * s.n
      ∧ (∀ v ∈ s.flatten, 1 ≤ v ∧ v ≤ s.flatten.length)
      ∧ s.flatten.Nodup := by
  have hlen : s.flatten.length = s.n * s.n := by
    simp [Sq.flatten]
  refine ⟨hlen, ?_, ?_⟩
  · intro v hv
    rw [hlen]
    simp only [Sq.flatten, List.mem_map, List.mem_range] at hv
    obtain ⟨t, ht, rfl⟩ := hv
    have hn : 0 < s.n := by
      rcases Nat.eq_zero_or_pos s.n with h0 | h0
      · rw [h0] at ht
        omega
      · exact h0
    have hr : t / s.n < s.n := (Nat.div_lt_iff_lt_mul hn).mpr ht
    have hc : t % s.n < s.n := Nat.mod_lt _ hn
    exact (h _ hr _ hc).1
  · rw [Sq.flatten]
    apply List.Nodup.map_on ?_ (List.nodup_range _)
    intro x hx y hy hf
    rw [List.mem_range] at hx hy
    have hn : 0 < s.n := by
      rcases Nat.eq_zero_or_pos s.n with h0 | h0
      · rw [h0] at hx
        omega
      · exact h0
    have hxr : x / s.n < s.n := (Nat.div_lt_iff_lt_mul hn).mpr hx
    have hxc : x % s.n < s.n := Nat.mod_lt _ hn
    have hyr : y / s.n < s.n := (Nat.div_lt_iff_lt_mul hn).mpr hy
    have hyc : y % s.n < s.n := Nat.mod_lt _ hn
    obtain ⟨he1, he2⟩ := (h _ hxr _ hxc).2 _ hyr _ hyc hf
    calc x = s.n * (x / s.n) + x % s.n := (Nat.div_add_mod x s.n).symm
      _ = s.n * (y / s.n) + y % s.n := by rw [he1, he2]
      _ = y := Nat.div_add_mod y s.n

/-- The basic engine round trip below the layout computation: decrypting the
    ciphertext of `encryptBody` with its own key recovers the text, for any
    permutation layout long enough for the text. -/
theorem decrypt_encryptBody (text L : List ℕ)
    (hb : ∀ v ∈ L, 1 ≤ v ∧ v ≤ L.length)
    (hnd : L.Nodup)
    (hlen : text.length ≤ L.length)
    (hemp : ∀ t ∈ text, t ≠ 95) :
    decrypt (encryptBody text L 95 39).2 (encryptBody text L 95 39).1 95 39
      = .ok (true, text) := by
  have hct2 : (encryptBody text L 95 39).2
      = (List.range L.length).map (fun i =>
          if L.getD i 0 ≤ text.length then pyIndex text ((L.getD i 0 : ℤ) - 1)
          else 95) := rfl
  have hkey : (encryptBody text L 95 39).1
      = natToBin (growBits (L.foldl max 0) 4) ++ 39
          :: L.flatMap (padBin (growBits (L.foldl max 0) 4)) := rfl
  rw [hct2, hkey]
  refine decrypt_generic text L _ hb hnd hlen ?_ ?_ hemp
  · simp
  · intro i hi
    have hg : ((List.range L.length).map (fun i =>
        if L.getD i 0 ≤ text.length then pyIndex text ((L.getD i 0 : ℤ) - 1)
        else 95)).getD i 0
        = (if L.getD i 0 ≤ text.length then pyIndex text ((L.getD i 0 : ℤ) - 1)
          else 95) := by
      rw [List.getD_eq_getElem _ _ (by simp [hi]), List.getElem_map, List.getElem_range]
    rw [hg]
    by_cases hle : L.getD i 0 ≤ text.length
    · rw [if_pos hle, if_pos hle]
      have hmem : L.getD i 0 ∈ L := by
        rw [List.getD_eq_getElem _ _ hi]
        exact List.getElem_mem hi
      exact pyIndex_ge_one text (L.getD i 0) (hb _ hmem).1 hle
    · rw [if_neg hle, if_neg hle]

/-- The enhanced engine round trip below the layout computation, in the runs
    where the filler-adjustment loop does not bump the filler and no XORed
    character collides with it. -/
theorem decrypt_encryptEnhBody (text L : List ℕ) (off : ℕ)
    (hb : ∀ v ∈ L, 1 ≤ v ∧ v ≤ L.length)
    (hnd : L.Nodup)
    (hlen : text.length ≤ L.length)
    (hnobump : hasCollision text L 95 = false)
    (hnocol : ∀ t ∈ text, t ^^^ off ≠ 95)
    (htval : ∀ t ∈ text, t < 1114112) :
    decrypt_enhanced (encryptEnhBody text L off 95 39).2
        (encryptEnhBody text L off 95 39).1 95 39
      = .ok (true, text) := by
  have hemp1 : adjustFiller text L 95 (text.length + 1) = 95 := by
    show (if hasCollision text L 95 then adjustFiller text L (95 + 1) text.length
      else 95) = 95
    rw [hnobump]
    simp
  have hct2 : (encryptEnhBody text L off 95 39).2
      = (List.range L.length).map (fun i =>
          if L.getD i 0 ≤ text.length then pyIndex text ((L.getD i 0 : ℤ) - 1) ^^^ off
          else adjustFiller text L 95 (text.length + 1)) := rfl
  have hkey : (encryptEnhBody text L off 95 39).1
      = natToBin (growBits (L.foldl max 0) 4) ++ 39
          :: (natToBin off ++ 39
            :: L.flatMap (padBin (growBits (L.foldl max 0) 4))) := rfl
  rw [hct2, hkey]
  refine decrypt_enhanced_generic text L _ off hb hnd hlen ?_ ?_ hnocol htval
  · simp
  · intro i hi
    have hg : ((List.range L.length).map (fun i =>
        if L.getD i 0 ≤ text.length then pyIndex text ((L.getD i 0 : ℤ) - 1) ^^^ off
        else adjustFiller text L 95 (text.length + 1))).getD i 0
        = (if L.getD i 0 ≤ text.length then pyIndex text ((L.getD i 0 : ℤ) - 1) ^^^ off
          else adjustFiller text L 95 (text.length + 1)) := by
      rw [List.getD_eq_getElem _ _ (by simp [hi]), List.getElem_map, List.getElem_range]
    rw [hg]
    by_cases hle : L.getD i 0 ≤ text.length
    · rw [if_pos hle, if_pos hle]
      have hmem : L.getD i 0 ∈ L := by
        rw [List.getD_eq_getElem _ _ hi]
        exact List.getElem_mem hi
      rw [pyIndex_ge_one text (L.getD i 0) (hb _ hmem).1 hle]
    · rw [if_neg hle, if_neg hle]
      exact hemp1

/-- C1 (amended): for every non-empty ASCII text of length at most 25 that
    avoids the filler character (the final `replace(empty, "")` of `decrypt`
    silently drops it — see the counterexample) and every reachable sequence
    of transformation draws, the BASIC round trip returns status true and the
    exact original text; the ENHANCED round trip does too under the
    additional provisos that the run does not bump the filler (the buggy
    collision test of encrypt_enhanced fires on `ord(text[i]) ^ layout[i]`,
    changing the filler that decrypt_enhanced still assumes to be the
    default) and that no character XORs onto the filler (such a position is
    dropped on decryption). -/
theorem C1_round_trip (text : List ℕ) (choices : List TChoice) (off : ℕ)
    (hne : text ≠ [])
    (hlen : text.length ≤ 25)
    (hval : ∀ c ∈ choices,
      validChoice (create_square (ceilSqrt text.length)).n c = true)
    (hemp : ∀ t ∈ text, t ≠ 95)
    (hascii : ∀ t ∈ text, t < 128) :
    decrypt (encrypt text choices 95 39).2 (encrypt text choices 95 39).1 95 39
        = .ok (true, text)
      ∧ (hasCollision text
            (transform_magic_square (create_square (ceilSqrt text.length))
              choices).flatten 95 = false →
          (∀ t ∈ text, t ^^^ off ≠ 95) →
          decrypt_enhanced (encrypt_enhanced text choices off 95 39).2
              (encrypt_enhanced text choices off 95 39).1 95 39
            = .ok (true, text)) := by
  have hbase : ∀ k ≤ 5, cellPerm (create_square k) := by decide
  have hq5 : ceilSqrt text.length ≤ 5 := (ceilSqrt_spec text.length).2 5 (by omega)
  have hcp0 : cellPerm (create_square (ceilSqrt text.length)) := hbase _ hq5
  have hcpT : cellPerm
      (transform_magic_square (create_square (ceilSqrt text.length)) choices) :=
    cellPerm_transform _ choices hval hcp0
  obtain ⟨hLlen, hLb, hLnd⟩ := flatten_props _ hcpT
  have hlenle : text.length ≤ (transform_magic_square
      (create_square (ceilSqrt text.length)) choices).flatten.length := by
    rw [hLlen, transform_n]
    have h1 := (ceilSqrt_spec text.length).1
    have h2 := (create_square_n_spec (ceilSqrt text.length)).2.1
    calc text.length ≤ ceilSqrt text.length * ceilSqrt text.length := h1
      _ ≤ (create_square (ceilSqrt text.length)).n
            * (create_square (ceilSqrt text.length)).n := Nat.mul_le_mul h2 h2
  have htval : ∀ t ∈ text, t < 1114112 := fun t ht =>
    lt_trans (hascii t ht) (by omega)
  constructor
  · exact decrypt_encryptBody text _ hLb hLnd hlenle hemp
  · intro hnobump hnocol
    exact decrypt_encryptEnhBody text _ off hLb hLnd hlenle hnobump hnocol htval

/-- Witness for C1_round_trip at the text "HELLO", zero transformations and
    offset 0: no character is the filler, all are ASCII, the run bumps
    nothing, and both engines indeed recover "HELLO". -/
theorem C1_round_trip_witness :
    decrypt (encrypt [72, 69, 76, 76, 79] [] 95 39).2
        (encrypt [72, 69, 76, 76, 79] [] 95 39).1 95 39
      = .ok (true, [72, 69, 76, 76, 79])
    ∧ decrypt_enhanced (encrypt_enhanced [72, 69, 76, 76, 79] [] 0 95 39).2
        (encrypt_enhanced [72, 69, 76, 76, 79] [] 0 95 39).1 95 39
      = .ok (true, [72, 69, 76, 76, 79]) := by
  have h := C1_round_trip [72, 69, 76, 76, 79] [] 0 (by decide) (by decide)
    (by decide) (by decide) (by decide)
  exact ⟨h.1, h.2 (by decide) (by decide)⟩
